import Mathlib

/-!
Verification of the s3ql sftp backend (`src/s3ql/backends/sftp.py`).

Strings are modelled as `List Char`.  Python's `str.replace` is modelled by
`replace1` (single-character pattern) and `replace3` (three-character
pattern): a left-to-right scan replacing each non-overlapping occurrence,
continuing after the replacement text, exactly as CPython does.
-/

set_option autoImplicit false

/-- Python `s.replace(a, r)` for a single-character pattern `a`. -/
def replace1 (a : Char) (r : List Char) : List Char → List Char
  | [] => []
  | c :: cs => (if c = a then r else [c]) ++ replace1 a r cs

/-- Python `s.replace(abc, r)` for a three-character pattern `a b c`:
left-to-right scan, non-overlapping, resuming after each replacement. -/
def replace3 (a b c : Char) (r : List Char) : List Char → List Char
  | x :: y :: z :: rest =>
    if x = a ∧ y = b ∧ z = c then r ++ replace3 a b c r rest
    else x :: replace3 a b c r (y :: z :: rest)
  | other => other

/-- The null character `'\0'`. -/
def nulC : Char := Char.ofNat 0

/-- `escape` from sftp.py lines 277-284: replace `'='` by `"=3D"`, then
`'/'` by `"=2F"`, then `'\0'` by `"=00"` (in that order). -/
def escape (s : List Char) : List Char :=
  replace1 nulC ['=', '0', '0']
    (replace1 '/' ['=', '2', 'F']
      (replace1 '=' ['=', '3', 'D'] s))

/-- `unescape` from sftp.py lines 286-293: replace `"=2F"` by `'/'`, then
`"=00"` by `'\0'`, then `"=3D"` by `'='` (in that order). -/
def unescape (s : List Char) : List Char :=
  replace3 '=' '3' 'D' ['=']
    (replace3 '=' '0' '0' [nulC]
      (replace3 '=' '2' 'F' ['/'] s))

theorem replace1_cons (a : Char) (r : List Char) (c : Char) (cs : List Char) :
    replace1 a r (c :: cs) = (if c = a then r else [c]) ++ replace1 a r cs := rfl

theorem replace1_append (a : Char) (r x y : List Char) :
    replace1 a r (x ++ y) = replace1 a r x ++ replace1 a r y := by
  induction x with
  | nil => simp [replace1]
  | cons c cs ih => simp [replace1, ih]

/-- The per-character effect of the three chained replacements in `escape`. -/
def escChar (c : Char) : List Char :=
  if c = '=' then ['=', '3', 'D']
  else if c = '/' then ['=', '2', 'F']
  else if c = nulC then ['=', '0', '0']
  else [c]

/-- Concatenation of per-character blocks. -/
def mapB (f : Char → List Char) : List Char → List Char
  | [] => []
  | c :: cs => f c ++ mapB f cs

theorem mapB_cons (f : Char → List Char) (c : Char) (cs : List Char) :
    mapB f (c :: cs) = f c ++ mapB f cs := rfl

theorem escape_cons (c : Char) (s : List Char) :
    escape (c :: s) = escChar c ++ escape s := by
  show replace1 nulC ['=','0','0'] (replace1 '/' ['=','2','F']
      (replace1 '=' ['=','3','D'] (c :: s))) = _
  rw [replace1_cons, replace1_append, replace1_append]
  congr 1
  by_cases h1 : c = '='
  · subst h1; rw [if_pos rfl]; decide
  · rw [if_neg h1]
    by_cases h2 : c = '/'
    · subst h2; decide
    · by_cases h3 : c = nulC
      · subst h3; decide
      · rw [show replace1 '/' ['=','2','F'] [c]
            = (if c = '/' then ['=','2','F'] else [c]) ++ replace1 '/' ['=','2','F'] [] from
            rfl, if_neg h2]
        rw [show replace1 '/' ['=','2','F'] ([] : List Char) = [] from rfl, List.append_nil]
        rw [show replace1 nulC ['=','0','0'] [c]
            = (if c = nulC then ['=','0','0'] else [c]) ++ replace1 nulC ['=','0','0'] [] from
            rfl, if_neg h3]
        rw [show replace1 nulC ['=','0','0'] ([] : List Char) = [] from rfl, List.append_nil]
        unfold escChar
        rw [if_neg h1, if_neg h2, if_neg h3]

theorem escape_eq_mapB (s : List Char) : escape s = mapB escChar s := by
  induction s with
  | nil => rfl
  | cons c cs ih => rw [escape_cons, ih]; rfl

theorem replace3_cons1 (a b c : Char) (r : List Char) (x : Char) (t : List Char)
    (h : x ≠ a) : replace3 a b c r (x :: t) = x :: replace3 a b c r t := by
  match t with
  | [] => rfl
  | [y] => rfl
  | y :: z :: rest => simp [replace3, h]

theorem replace3_cons2 (a b c : Char) (r : List Char) (x y : Char) (t : List Char)
    (h : y ≠ b) :
    replace3 a b c r (x :: y :: t) = x :: replace3 a b c r (y :: t) := by
  match t with
  | [] => rfl
  | z :: rest => simp [replace3, h]

theorem replace3_match (a b c : Char) (r : List Char) (t : List Char) :
    replace3 a b c r (a :: b :: c :: t) = r ++ replace3 a b c r t := by
  simp [replace3]

/-- Per-character blocks after undoing the `"=2F"` escape. -/
def dChar1 (c : Char) : List Char :=
  if c = '=' then ['=', '3', 'D']
  else if c = '/' then ['/']
  else if c = nulC then ['=', '0', '0']
  else [c]

/-- Per-character blocks after also undoing the `"=00"` escape. -/
def dChar2 (c : Char) : List Char :=
  if c = '=' then ['=', '3', 'D'] else [c]

theorem dChar1_other (c : Char) (h1 : c ≠ '=') (h2 : c ≠ '/') (h3 : c ≠ nulC) :
    dChar1 c = [c] := by
  unfold dChar1; rw [if_neg h1, if_neg h2, if_neg h3]

theorem dChar2_other (c : Char) (h1 : c ≠ '=') : dChar2 c = [c] := by
  unfold dChar2; rw [if_neg h1]

theorem escChar_other (c : Char) (h1 : c ≠ '=') (h2 : c ≠ '/') (h3 : c ≠ nulC) :
    escChar c = [c] := by
  unfold escChar; rw [if_neg h1, if_neg h2, if_neg h3]

theorem unescape_stage1 (s : List Char) :
    replace3 '=' '2' 'F' ['/'] (escape s) = mapB dChar1 s := by
  induction s with
  | nil => rfl
  | cons c cs ih =>
    rw [escape_cons, mapB_cons]
    by_cases h1 : c = '='
    · subst h1
      rw [show escChar '=' = ['=','3','D'] from by decide,
        show dChar1 '=' = ['=','3','D'] from by decide]
      simp only [List.cons_append, List.nil_append]
      rw [replace3_cons2 '=' '2' 'F' ['/'] '=' '3' ('D' :: escape cs) (by decide),
        replace3_cons1 '=' '2' 'F' ['/'] '3' ('D' :: escape cs) (by decide),
        replace3_cons1 '=' '2' 'F' ['/'] 'D' (escape cs) (by decide), ih]
    · by_cases h2 : c = '/'
      · subst h2
        rw [show escChar '/' = ['=','2','F'] from by decide,
          show dChar1 '/' = ['/'] from by decide]
        simp only [List.cons_append, List.nil_append]
        rw [replace3_match '=' '2' 'F' ['/'] (escape cs), ih]
        rfl
      · by_cases h3 : c = nulC
        · subst h3
          rw [show escChar nulC = ['=','0','0'] from by decide,
            show dChar1 nulC = ['=','0','0'] from by decide]
          simp only [List.cons_append, List.nil_append]
          rw [replace3_cons2 '=' '2' 'F' ['/'] '=' '0' ('0' :: escape cs) (by decide),
            replace3_cons1 '=' '2' 'F' ['/'] '0' ('0' :: escape cs) (by decide),
            replace3_cons1 '=' '2' 'F' ['/'] '0' (escape cs) (by decide), ih]
        · rw [escChar_other c h1 h2 h3, dChar1_other c h1 h2 h3]
          simp only [List.cons_append, List.nil_append]
          rw [replace3_cons1 '=' '2' 'F' ['/'] c (escape cs) h1, ih]

theorem unescape_stage2 (s : List Char) :
    replace3 '=' '0' '0' [nulC] (mapB dChar1 s) = mapB dChar2 s := by
  induction s with
  | nil => rfl
  | cons c cs ih =>
    rw [mapB_cons, mapB_cons]
    by_cases h1 : c = '='
    · subst h1
      rw [show dChar1 '=' = ['=','3','D'] from by decide,
        show dChar2 '=' = ['=','3','D'] from by decide]
      simp only [List.cons_append, List.nil_append]
      rw [replace3_cons2 '=' '0' '0' [nulC] '=' '3' ('D' :: mapB dChar1 cs) (by decide),
        replace3_cons1 '=' '0' '0' [nulC] '3' ('D' :: mapB dChar1 cs) (by decide),
        replace3_cons1 '=' '0' '0' [nulC] 'D' (mapB dChar1 cs) (by decide), ih]
    · by_cases h2 : c = '/'
      · subst h2
        rw [show dChar1 '/' = ['/'] from by decide, show dChar2 '/' = ['/'] from by decide]
        simp only [List.cons_append, List.nil_append]
        rw [replace3_cons1 '=' '0' '0' [nulC] '/' (mapB dChar1 cs) (by decide), ih]
      · by_cases h3 : c = nulC
        · subst h3
          rw [show dChar1 nulC = ['=','0','0'] from by decide,
            show dChar2 nulC = [nulC] from by decide]
          simp only [List.cons_append, List.nil_append]
          rw [replace3_match '=' '0' '0' [nulC] (mapB dChar1 cs), ih]
          rfl
        · rw [dChar1_other c h1 h2 h3, dChar2_other c h1]
          simp only [List.cons_append, List.nil_append]
          rw [replace3_cons1 '=' '0' '0' [nulC] c (mapB dChar1 cs) h1, ih]

theorem unescape_stage3 (s : List Char) :
    replace3 '=' '3' 'D' ['='] (mapB dChar2 s) = s := by
  induction s with
  | nil => rfl
  | cons c cs ih =>
    rw [mapB_cons]
    by_cases h1 : c = '='
    · subst h1
      rw [show dChar2 '=' = ['=','3','D'] from by decide]
      simp only [List.cons_append, List.nil_append]
      rw [replace3_match '=' '3' 'D' ['='] (mapB dChar2 cs), ih]
      rfl
    · rw [dChar2_other c h1]
      simp only [List.cons_append, List.nil_append]
      rw [replace3_cons1 '=' '3' 'D' ['='] c (mapB dChar2 cs) h1, ih]

/-- C1: over the full character space (`'/'`, `'='` and `'\0'` included),
`unescape (escape k) = k`. -/
theorem c1_unescape_escape_roundtrip (k : List Char) : unescape (escape k) = k := by
  show replace3 '=' '3' 'D' ['=']
    (replace3 '=' '0' '0' [nulC] (replace3 '=' '2' 'F' ['/'] (escape k))) = k
  rw [unescape_stage1, unescape_stage2, unescape_stage3]

theorem escChar_no_sep_no_nul (c : Char) :
    '/' ∉ escChar c ∧ nulC ∉ escChar c := by
  by_cases h1 : c = '='
  · subst h1; decide
  · by_cases h2 : c = '/'
    · subst h2; decide
    · by_cases h3 : c = nulC
      · subst h3; decide
      · rw [escChar_other c h1 h2 h3]
        constructor
        · intro hm
          rw [List.mem_singleton] at hm
          exact h2 hm.symm
        · intro hm
          rw [List.mem_singleton] at hm
          exact h3 hm.symm

/-- C9: the escaped form of any key contains neither the path separator
`'/'` nor the null character, so it is usable as a single path component. -/
theorem c9_escape_no_separator_no_null (k : List Char) :
    '/' ∉ escape k ∧ nulC ∉ escape k := by
  rw [escape_eq_mapB]
  induction k with
  | nil => simp [mapB]
  | cons c cs ih =>
    have hc := escChar_no_sep_no_nul c
    rw [mapB_cons]
    constructor
    · intro hm
      rcases List.mem_append.mp hm with h | h
      · exact hc.1 h
      · exact ih.1 h
    · intro hm
      rcases List.mem_append.mp hm with h | h
      · exact hc.2 h
      · exact ih.2 h

/-!
## Remote filesystem model

The remote host's filesystem is a finite tree: `Entry.file` holds opaque
content (payload bytes or a pickled metadata record, represented by a `Nat`
id), `Entry.dir` holds a list of named children.  A raw path string is
resolved by the server into its nonempty `'/'`-separated components
(`normP`), so `"bucket/x"`, `"/bucket/x"` and `"//bucket/x"` name the
same entry: the session's working directory is modelled as the root, and
repeated separators collapse, as a POSIX server resolves them.

Errors carry the `errno` distinctions the Python code branches on:
`ENOENT`, `EEXIST`, `ENOTEMPTY`, and `other` for everything else
(`ENOTDIR`, `EISDIR`, ...), which sftp.py always re-raises.
-/

inductive Entry where
  | file (content : Nat)
  | dir (children : List (List Char × Entry))

inductive Err where
  | ENOENT
  | EEXIST
  | ENOTEMPTY
  | other
deriving DecidableEq

/-- A Python-level exception: `KeyError`, or an `IOError`/`OSError`
carrying an errno. -/
inductive PyErr where
  | keyError
  | ioError (e : Err)
deriving DecidableEq

/-- First entry with the given name in a directory listing. -/
def assocFind (ch : List (List Char × Entry)) (n : List Char) : Option Entry :=
  match ch with
  | [] => none
  | (m, e) :: rest => if m = n then some e else assocFind rest n

/-- Replace the first entry named `n` (append if absent). -/
def setFirst (ch : List (List Char × Entry)) (n : List Char) (e' : Entry) :
    List (List Char × Entry) :=
  match ch with
  | [] => [(n, e')]
  | (m, e) :: rest => if m = n then (m, e') :: rest else (m, e) :: setFirst rest n e'

/-- Drop the first entry named `n`. -/
def eraseFirst (ch : List (List Char × Entry)) (n : List Char) :
    List (List Char × Entry) :=
  match ch with
  | [] => []
  | (m, e) :: rest => if m = n then rest else (m, e) :: eraseFirst rest n

/-- Apply the result of a child transformation to a listing:
`some e'` installs `e'` under `n`, `none` deletes `n`. -/
def applyChild (ch : List (List Char × Entry)) (n : List Char) :
    Option Entry → List (List Char × Entry)
  | some e' => setFirst ch n e'
  | none => eraseFirst ch n

/-- Follow a component path down the tree. -/
def lookupE : List (List Char) → Entry → Option Entry
  | [], e => some e
  | _ :: _, .file _ => none
  | q :: qs, .dir ch =>
    match assocFind ch q with
    | none => none
    | some e => lookupE qs e

/-- Navigate to the parent directory `p` and transform its child `n` with
`f`; a missing intermediate component fails with `ENOENT`, a file in the
middle of the path with `other` (ENOTDIR). -/
def modifyChild (f : Option Entry → Except Err (Option Entry)) :
    List (List Char) → List Char → Entry → Except Err Entry
  | [], n, .dir ch => (f (assocFind ch n)).map (fun r => .dir (applyChild ch n r))
  | [], _, .file _ => .error .other
  | q :: qs, n, .dir ch =>
    match assocFind ch q with
    | none => .error .ENOENT
    | some e => (modifyChild f qs n e).map (fun e' => .dir (setFirst ch q e'))
  | _ :: _, _, .file _ => .error .other

/-- Overwrite the entry at a component path (no-op on a broken path);
used only to state what the operations do, not by the operations. -/
def setAtE : List (List Char) → Entry → Entry → Entry
  | [], e', _ => e'
  | q :: qs, e', .dir ch =>
    match assocFind ch q with
    | none => .dir ch
    | some e => .dir (setFirst ch q (setAtE qs e' e))
  | _ :: _, _, .file c => .file c

def splitLast {α : Type} : List α → Option (List α × α)
  | [] => none
  | [a] => some ([], a)
  | a :: b :: rest =>
    match splitLast (b :: rest) with
    | none => none
    | some (p, x) => some (a :: p, x)

/-- Python `path.split('/')` (keeps empty components). -/
def splitSlashGo (cur : List Char) : List Char → List (List Char)
  | [] => [cur.reverse]
  | c :: cs => if c = '/' then cur.reverse :: splitSlashGo [] cs else splitSlashGo (c :: cur) cs

def splitSlash (p : List Char) : List (List Char) := splitSlashGo [] p

/-- Server-side path resolution: the nonempty `'/'`-separated components. -/
def normP (p : List Char) : List (List Char) :=
  (splitSlash p).filter (fun c => !c.isEmpty)

/-- `Connection.__contains__` (sftp.py lines 50-59): `stat` succeeds iff
some entry (file or directory) lives at the path. -/
def pathExists (fs : Entry) (raw : List Char) : Bool :=
  (lookupE (normP raw) fs).isSome

/-- Child transformation of `sftp.mkdir`. -/
def mkdF : Option Entry → Except Err (Option Entry)
  | some _ => .error .EEXIST
  | none => .ok (some (.dir []))

/-- Child transformation of `sftp.open(_, 'w')` + write + close. -/
def wrF (d : Nat) : Option Entry → Except Err (Option Entry)
  | some (.dir _) => .error .other
  | _ => .ok (some (.file d))

/-- Child transformation of `sftp.remove`. -/
def remF : Option Entry → Except Err (Option Entry)
  | some (.file _) => .ok none
  | some (.dir _) => .error .other
  | none => .error .ENOENT

/-- Child transformation of `sftp.rmdir`. -/
def rmdF : Option Entry → Except Err (Option Entry)
  | some (.dir []) => .ok none
  | some (.dir (_ :: _)) => .error .ENOTEMPTY
  | some (.file _) => .error .other
  | none => .error .ENOENT

/-- `sftp.mkdir` on a component path. -/
def mkdirC (fs : Entry) (comps : List (List Char)) : Except Err Entry :=
  match splitLast comps with
  | none => .error .other
  | some (p, n) => modifyChild mkdF p n fs

/-- `sftp.open(path, 'w')` followed by writing `d` and closing: creates or
truncates the file, requires the parent directory to exist. -/
def writeC (fs : Entry) (comps : List (List Char)) (d : Nat) : Except Err Entry :=
  match splitLast comps with
  | none => .error .other
  | some (p, n) => modifyChild (wrF d) p n fs

/-- `sftp.remove` on a component path. -/
def removeC (fs : Entry) (comps : List (List Char)) : Except Err Entry :=
  match splitLast comps with
  | none => .error .other
  | some (p, n) => modifyChild remF p n fs

/-- `sftp.rmdir` on a component path: only an existing empty directory. -/
def rmdirC (fs : Entry) (comps : List (List Char)) : Except Err Entry :=
  match splitLast comps with
  | none => .error .other
  | some (p, n) => modifyChild rmdF p n fs

/-- `sftp.rename` on component paths: atomic move of the whole entry;
fails with `ENOENT` if the source is absent or the destination's parent is
missing, with `other` if the destination exists (SFTP v3 refuses). -/
def renameC (fs : Entry) (s d : List (List Char)) : Except Err Entry :=
  match lookupE s fs with
  | none => .error .ENOENT
  | some e =>
    match splitLast s, splitLast d with
    | some (sp, sn), some (dp, dn) =>
      match modifyChild (fun r => match r with
          | some _ => .ok none
          | none => .error .ENOENT) sp sn fs with
      | .error e' => .error e'
      | .ok fs1 =>
        modifyChild (fun r => match r with
          | none => .ok (some e)
          | some _ => .error .other) dp dn fs1
    | _, _ => .error .other

/-!
## Path mapper (`Bucket.key_to_path`, sftp.py lines 116-130)
-/

/-- One step of CPython `posixpath.join`. -/
def joinTwo (path b : List Char) : List Char :=
  if b.head? = some '/' then b
  else if path = [] ∨ path.getLast? = some '/' then path ++ b
  else path ++ '/' :: b

/-- CPython `os.path.join(*parts)` on POSIX. -/
def osJoin : List (List Char) → List Char
  | [] => []
  | a :: rest => rest.foldl joinTwo a

/-- The bulk-data key marker `"s3ql_data_"`. -/
def s3qlPre : List Char := "s3ql_data_".toList

/-- `range(0, n, 3)`. -/
def range3 (n : Nat) : List Nat := (List.range ((n + 2) / 3)).map (fun k => 3 * k)

/-- `Bucket.key_to_path`: escape the key; non-bulk keys map flat to
`name/escapedKey`; bulk keys are fanned out below `name/s3ql_data` through
the prefixes `no[:i]` of the suffix `no` for `i = 0, 3, 6, ... < len(no)`,
with the full escaped key as last component. -/
def key_to_path (name key : List Char) : List Char :=
  let k := escape key
  if s3qlPre.isPrefixOf k then
    let no := k.drop 10
    osJoin ([name, "s3ql_data".toList] ++ (range3 no.length).map (fun i => no.take i) ++ [k])
  else osJoin [name, k]

def datSuf : List Char := ".dat".toList
def metaSuf : List Char := ".meta".toList

/-- `Bucket.contains` (line 138): `stat` on the mapped path plus `.dat`. -/
def contains (fs : Entry) (name key : List Char) : Bool :=
  pathExists fs (key_to_path name key ++ datSuf)

/-- CPython `posixpath.dirname`. -/
def dirname (p : List Char) : List Char :=
  let t := (p.reverse.takeWhile (fun c => c != '/')).length
  if t = p.length then []
  else
    let head := p.take (p.length - t)
    if head.all (fun c => c == '/') then head
    else (head.reverse.dropWhile (fun c => c == '/')).reverse

/-!
## `Bucket._makedirs` (sftp.py lines 196-210)

Walks `path.split('/')`, accumulating `cur = cur + '/' + el` from the
initial `cur = '/'`, creating every component whose path does not yet
exist; if nothing was missing it raises `OSError` with errno `EEXIST`.
-/

def mkLoop (fs : Entry) (cur : List Char) (dn : Bool) :
    List (List Char) → Entry × Bool × Option Err
  | [] => (fs, dn, none)
  | el :: rest =>
    let cur' := cur ++ '/' :: el
    if pathExists fs cur' then mkLoop fs cur' dn rest
    else
      match mkdirC fs (normP cur') with
      | .ok fs' => mkLoop fs' cur' true rest
      | .error e => (fs, dn, some e)

def makedirs (fs : Entry) (path : List Char) : Entry × Option Err :=
  match mkLoop fs ['/'] false (splitSlash path) with
  | (fs', _, some e) => (fs', some e)
  | (fs', dn, none) => if dn then (fs', none) else (fs', some .EEXIST)

/-!
## Bucket operations

Each operation returns the filesystem state reached when it returns or
raises, paired with the raised exception (if any): Python's side effects
persist across a raise.
-/

/-- `Bucket.delete` (sftp.py lines 152-165): remove `path.dat` then
`path.meta`; an `ENOENT` from either is swallowed when `force` and turned
into `KeyError` otherwise; other errors propagate. -/
def delete (fs : Entry) (name key : List Char) (force : Bool) :
    Entry × Option PyErr :=
  let path := key_to_path name key
  match removeC fs (normP (path ++ datSuf)) with
  | .ok fs1 =>
    match removeC fs1 (normP (path ++ metaSuf)) with
    | .ok fs2 => (fs2, none)
    | .error .ENOENT => if force then (fs1, none) else (fs1, some .keyError)
    | .error e => (fs1, some (.ioError e))
  | .error .ENOENT => if force then (fs, none) else (fs, some .keyError)
  | .error e => (fs, some (.ioError e))

/-- `Bucket.raw_store` (sftp.py lines 244-260): open/write `path.dat`; on
`ENOENT` create the parent chain with `_makedirs(dirname(path))` and retry
once; then write `path.meta`.  `d` and `m` stand for the payload and the
pickled metadata. -/
def raw_store (fs : Entry) (name key : List Char) (d m : Nat) :
    Entry × Option PyErr :=
  let path := key_to_path name key
  let step1 : Entry × Option PyErr :=
    match writeC fs (normP (path ++ datSuf)) d with
    | .ok fs1 => (fs1, none)
    | .error e =>
      if e ≠ .ENOENT then (fs, some (.ioError e))
      else
        match makedirs fs (dirname path) with
        | (fs2, some e2) => (fs2, some (.ioError e2))
        | (fs2, none) =>
          match writeC fs2 (normP (path ++ datSuf)) d with
          | .ok fs3 => (fs3, none)
          | .error e3 => (fs2, some (.ioError e3))
  match step1 with
  | (fs', some e) => (fs', some e)
  | (fs', none) =>
    match writeC fs' (normP (path ++ metaSuf)) m with
    | .ok fs'' => (fs'', none)
    | .error e => (fs', some (.ioError e))

/-- `Bucket.rename` (sftp.py lines 262-274).  The guard calls
`os.path.exists(src_path + '.dat')`, which consults the filesystem of the
LOCAL machine, modelled by the set `localFS` of raw path strings; the
remote rename is attempted on the bare mapped paths (no `.dat`/`.meta`
suffix), with the makedirs-and-retry fallback on `ENOENT`. -/
def rename (localFS : List (List Char)) (fs : Entry) (name src dst : List Char) :
    Entry × Option PyErr :=
  let src_path := key_to_path name src
  let dest_path := key_to_path name dst
  if (src_path ++ datSuf) ∈ localFS then
    match renameC fs (normP src_path) (normP dest_path) with
    | .ok fs' => (fs', none)
    | .error e =>
      if e ≠ .ENOENT then (fs, some (.ioError e))
      else
        match makedirs fs (dirname dest_path) with
        | (fs2, some e2) => (fs2, some (.ioError e2))
        | (fs2, none) =>
          match renameC fs2 (normP src_path) (normP dest_path) with
          | .ok fs3 => (fs3, none)
          | .error e3 => (fs2, some (.ioError e3))
  else (fs, some .keyError)

/-!
## Deleting absent keys (C6, C10) and the rename defect (C3, C4)
-/

/-- Every proper prefix of `comps` resolves to a directory or to nothing
(never to a file), so a failed traversal can only mean `ENOENT`. -/
def noFileAlong (fs : Entry) : List (List Char) → Bool
  | [] => true
  | q :: qs =>
    match fs with
    | .file _ => false
    | .dir ch =>
      match assocFind ch q with
      | none => true
      | some e => noFileAlong e qs

theorem splitLast_of_ne_nil {α : Type} (l : List α) (h : l ≠ []) :
    ∃ p n, splitLast l = some (p, n) ∧ l = p ++ [n] := by
  induction l with
  | nil => exact absurd rfl h
  | cons a rest ih =>
    match rest with
    | [] => exact ⟨[], a, rfl, rfl⟩
    | b :: rest' =>
      obtain ⟨p', x, hs, he⟩ := ih (by simp)
      refine ⟨a :: p', x, ?_, ?_⟩
      · show (match splitLast (b :: rest') with
          | none => none
          | some (p, x) => some (a :: p, x)) = _
        rw [hs]
      · rw [show a :: b :: rest' = a :: (b :: rest') from rfl, he]; rfl

theorem modifyChild_absent (f : Option Entry → Except Err (Option Entry))
    (hf : f none = .error .ENOENT) :
    ∀ (p : List (List Char)) (n : List Char) (fs : Entry),
      noFileAlong fs (p ++ [n]) = true →
      lookupE (p ++ [n]) fs = none →
      modifyChild f p n fs = .error .ENOENT := by
  intro p
  induction p with
  | nil =>
    intro n fs hnf hlk
    match fs with
    | .file c => simp [noFileAlong] at hnf
    | .dir ch =>
      show (f (assocFind ch n)).map (fun r => Entry.dir (applyChild ch n r))
        = Except.error Err.ENOENT
      cases hfind : assocFind ch n with
      | some e =>
        exfalso
        rw [show lookupE ([] ++ [n]) (Entry.dir ch)
            = (match assocFind ch n with
               | none => none
               | some e => lookupE [] e) from rfl, hfind] at hlk
        exact Option.some_ne_none e hlk
      | none => rw [hf]; rfl
  | cons q qs ih =>
    intro n fs hnf hlk
    match fs with
    | .file c => simp [noFileAlong] at hnf
    | .dir ch =>
      show (match assocFind ch q with
        | none => Except.error Err.ENOENT
        | some e => (modifyChild f qs n e).map (fun e' => Entry.dir (setFirst ch q e')))
        = Except.error Err.ENOENT
      match hfind : assocFind ch q with
      | none => rfl
      | some e =>
        have hnf' : noFileAlong e (qs ++ [n]) = true := by
          rw [show noFileAlong (.dir ch) ((q :: qs) ++ [n])
              = (match assocFind ch q with
                 | none => true
                 | some e => noFileAlong e (qs ++ [n])) from rfl, hfind] at hnf
          exact hnf
        have hlk' : lookupE (qs ++ [n]) e = none := by
          rw [show lookupE ((q :: qs) ++ [n]) (.dir ch)
              = (match assocFind ch q with
                 | none => none
                 | some e => lookupE (qs ++ [n]) e) from rfl, hfind] at hlk
          exact hlk
        show Except.map (fun e' => Entry.dir (setFirst ch q e')) (modifyChild f qs n e)
          = Except.error Err.ENOENT
        rw [ih n e hnf' hlk']
        rfl

theorem splitSlashGo_mem_carrier (cs cur : List Char) :
    ∃ comp, comp ∈ splitSlashGo cur cs ∧ ∀ x ∈ cur, x ∈ comp := by
  induction cs generalizing cur with
  | nil =>
    exact ⟨cur.reverse, by simp [splitSlashGo], fun x hx => List.mem_reverse.mpr hx⟩
  | cons d ds ih =>
    by_cases hd : d = '/'
    · subst hd
      refine ⟨cur.reverse, ?_, fun x hx => List.mem_reverse.mpr hx⟩
      simp [splitSlashGo]
    · obtain ⟨comp, hmem, hall⟩ := ih (d :: cur)
      refine ⟨comp, ?_, fun x hx => hall x (List.mem_cons_of_mem d hx)⟩
      simpa [splitSlashGo, hd] using hmem

theorem splitSlash_all_empty_imp (cs : List Char) :
    ∀ cur, (∀ comp ∈ splitSlashGo cur cs, comp = []) → ∀ c ∈ cs, c = '/' := by
  induction cs with
  | nil => intro cur _ c hc; exact absurd hc (List.not_mem_nil c)
  | cons d ds ih =>
    intro cur hall c hc
    by_cases hd : d = '/'
    · subst hd
      rcases List.mem_cons.mp hc with h | h
      · exact h
      · refine ih [] ?_ c h
        intro comp hcomp
        exact hall comp (by simp [splitSlashGo]; right; exact hcomp)
    · exfalso
      obtain ⟨comp, hmem, hcarr⟩ := splitSlashGo_mem_carrier ds (d :: cur)
      have : comp = [] := hall comp (by simpa [splitSlashGo, hd] using hmem)
      have : d ∈ comp := hcarr d (List.mem_cons_self d cur)
      simp_all

theorem normP_ne_nil_of_mem (raw : List Char) (c : Char) (hc : c ∈ raw)
    (hc' : c ≠ '/') : normP raw ≠ [] := by
  intro hnil
  have hall : ∀ comp ∈ splitSlash raw, comp = [] := by
    intro comp hcomp
    have := List.filter_eq_nil_iff.mp hnil comp hcomp
    simpa using this
  exact hc' (splitSlash_all_empty_imp raw [] hall c hc)

theorem normP_dat_ne_nil (path : List Char) : normP (path ++ datSuf) ≠ [] :=
  normP_ne_nil_of_mem _ 't' (List.mem_append_right path (by decide)) (by decide)

/-- C6: on a key that is absent (no data file, no metadata file, and no
stray file blocking the mapped path), `delete` with `force = false` raises
`KeyError` and with `force = true` returns silently; the state is
unchanged either way. -/
theorem c6_delete_absent_key (fs : Entry) (name key : List Char)
    (hclean : noFileAlong fs (normP (key_to_path name key ++ datSuf)) = true)
    (hdat : lookupE (normP (key_to_path name key ++ datSuf)) fs = none)
    (hmeta : lookupE (normP (key_to_path name key ++ metaSuf)) fs = none) :
    delete fs name key false = (fs, some .keyError) ∧
    delete fs name key true = (fs, none) := by
  obtain ⟨p, n, hs, he⟩ := splitLast_of_ne_nil _ (normP_dat_ne_nil (key_to_path name key))
  have hrem : removeC fs (normP (key_to_path name key ++ datSuf)) = .error .ENOENT := by
    unfold removeC
    rw [hs]
    exact modifyChild_absent _ rfl p n fs (he ▸ hclean) (he ▸ hdat)
  constructor <;> (simp only [delete]; rw [hrem]; rfl)

theorem c6_delete_absent_key_witness :
    delete (.dir []) "bucket".toList "x".toList false
      = (.dir [], some .keyError) ∧
    delete (.dir []) "bucket".toList "x".toList true = (.dir [], none) :=
  c6_delete_absent_key (.dir []) "bucket".toList "x".toList rfl rfl rfl

/-- C10: with the data file absent but the metadata file present,
`delete(key, force := true)` succeeds and leaves the metadata file in
place, because the data file is removed first and its `ENOENT` aborts the
`try` block before the metadata removal. -/
theorem c10_force_delete_keeps_meta (fs : Entry) (name key : List Char) (m : Nat)
    (hclean : noFileAlong fs (normP (key_to_path name key ++ datSuf)) = true)
    (hdat : lookupE (normP (key_to_path name key ++ datSuf)) fs = none)
    (hmeta : lookupE (normP (key_to_path name key ++ metaSuf)) fs = some (.file m)) :
    delete fs name key true = (fs, none) ∧
    lookupE (normP (key_to_path name key ++ metaSuf))
      (delete fs name key true).1 = some (.file m) := by
  obtain ⟨p, n, hs, he⟩ := splitLast_of_ne_nil _ (normP_dat_ne_nil (key_to_path name key))
  have hrem : removeC fs (normP (key_to_path name key ++ datSuf)) = .error .ENOENT := by
    unfold removeC
    rw [hs]
    exact modifyChild_absent _ rfl p n fs (he ▸ hclean) (he ▸ hdat)
  have hdel : delete fs name key true = (fs, none) := by
    simp only [delete]; rw [hrem]; rfl
  exact ⟨hdel, by rw [hdel]; exact hmeta⟩

theorem c10_force_delete_keeps_meta_witness :
    delete (.dir [("bucket".toList, .dir [("x.meta".toList, .file 7)])])
        "bucket".toList "x".toList true
      = (.dir [("bucket".toList, .dir [("x.meta".toList, .file 7)])], none) ∧
    lookupE (normP ("bucket/x".toList ++ metaSuf))
      (delete (.dir [("bucket".toList, .dir [("x.meta".toList, .file 7)])])
        "bucket".toList "x".toList true).1 = some (.file 7) := by
  have h := c10_force_delete_keeps_meta
    (.dir [("bucket".toList, .dir [("x.meta".toList, .file 7)])])
    "bucket".toList "x".toList 7 rfl rfl rfl
  exact ⟨h.1, h.2⟩

/-- The remote state for the C3 failing input: the bucket holds the object
`"x"` as its two files `x.dat` / `x.meta`, exactly as `raw_store` lays
them out. -/
def fsC3 : Entry :=
  .dir [("bucket".toList,
    .dir [("x.dat".toList, .file 1), ("x.meta".toList, .file 2)])]

/-- C3 fails on the code: with the object `"x"` present remotely (and the
local machine, where `os.path.exists` looks, not having the path),
`rename("x", "y")` raises `KeyError` and moves nothing: `contains "x"`
stays true and `contains "y"` stays false. -/
theorem c3_rename_present_key_fails :
    rename [] fsC3 "bucket".toList "x".toList "y".toList
      = (fsC3, some .keyError) ∧
    contains fsC3 "bucket".toList "x".toList = true ∧
    contains fsC3 "bucket".toList "y".toList = false :=
  ⟨rfl, rfl, rfl⟩

/-- The remote state for the C4 failing input: the bucket exists but holds
no object. -/
def fsC4 : Entry := .dir [("bucket".toList, .dir [])]

/-- C4 fails on the code: with the remote source data file absent but the
local path `bucket/x.dat` present (an unrelated file on the caller's
machine), `rename("x", "y")` does not raise `KeyError`: the guard consults
`os.path.exists`, the bare-path remote rename fails with `ENOENT`, and
`_makedirs` then raises `OSError` with errno `EEXIST` because the flat
destination's parent already exists. -/
theorem c4_rename_absent_key_wrong_error :
    rename ["bucket/x.dat".toList] fsC4 "bucket".toList "x".toList "y".toList
      = (fsC4, some (.ioError .EEXIST)) ∧
    lookupE (normP ("bucket/x".toList ++ datSuf)) fsC4 = none :=
  ⟨rfl, rfl⟩

/-!
## The path mapper's shard levels (C2)
-/

/-- `'/'`-joined components (no empty-component absorption). -/
def intercalateSlash : List (List Char) → List Char
  | [] => []
  | a :: rest => rest.foldl (fun acc b => acc ++ '/' :: b) a

/-- The positive multiples of 3 strictly below `n`: the lengths of the
prefix slices that actually become shard directory levels. -/
def posMults3 (n : Nat) : List Nat :=
  (List.range ((n + 2) / 3 - 1)).map (fun k => 3 * (k + 1))

/-- The amended shard layout: `name`, then `s3ql_data`, then the prefixes
of the suffix of lengths 3, 6, ... strictly below the suffix length (the
zero-length level of the loop collapses in the join), then the full
escaped key, joined with `'/'`. -/
def shardPathAmended (name key : List Char) : List Char :=
  let k := escape key
  let no := k.drop 10
  intercalateSlash
    ([name, "s3ql_data".toList] ++ (posMults3 no.length).map (fun i => no.take i) ++ [k])

/-- C2's "in particular" is false on the code: for suffix `"012345"` the
loop appends the prefixes `no[:0] = ""` and `no[:3] = "012"` only, so the
mapped path is `bucket/s3ql_data/012/s3ql_data_012345`, not the claimed
`bucket/s3ql_data/012/012345/s3ql_data_012345`. -/
theorem c2_shard_counterexample :
    key_to_path "bucket".toList "s3ql_data_012345".toList
      = "bucket/s3ql_data/012/s3ql_data_012345".toList ∧
    key_to_path "bucket".toList "s3ql_data_012345".toList
      ≠ "bucket/s3ql_data/012/012345/s3ql_data_012345".toList := by
  constructor
  · decide
  · decide

theorem head?_ne_slash (c : List Char) (hne : c ≠ []) (hmem : '/' ∉ c) :
    c.head? ≠ some '/' := by
  match c with
  | [] => exact absurd rfl hne
  | a :: t =>
    intro h
    rw [List.head?_cons, Option.some_inj] at h
    exact hmem (h ▸ List.mem_cons_self a t)

theorem getLast?_ne_slash (c : List Char) (hne : c ≠ []) (hmem : '/' ∉ c) :
    c.getLast? ≠ some '/' := by
  rw [List.getLast?_eq_getLast_of_ne_nil hne]
  intro h
  rw [Option.some_inj] at h
  exact hmem (h ▸ List.getLast_mem hne)

theorem joinTwo_clean (acc b : List Char) (hacc : acc ≠ [])
    (hlast : acc.getLast? ≠ some '/') (hb : b.head? ≠ some '/') :
    joinTwo acc b = acc ++ '/' :: b := by
  unfold joinTwo
  rw [if_neg hb, if_neg]
  rintro (h | h)
  · exact hacc h
  · exact hlast h

theorem joinTwo_empty (acc : List Char) (hacc : acc ≠ [])
    (hlast : acc.getLast? ≠ some '/') : joinTwo acc [] = acc ++ ['/'] := by
  have h := joinTwo_clean acc [] hacc hlast (by simp)
  simpa using h

theorem joinTwo_after_empty (acc b : List Char) (hacc : acc ≠ [])
    (hlast : acc.getLast? ≠ some '/') (hb : b.head? ≠ some '/') :
    joinTwo (joinTwo acc []) b = acc ++ '/' :: b := by
  rw [joinTwo_empty acc hacc hlast]
  unfold joinTwo
  rw [if_neg hb, if_pos]
  · rw [List.append_assoc]
    rfl
  · right
    rw [List.getLast?_append]
    rfl

theorem getLast?_append_cons_ne_slash (acc c : List Char) (hne : c ≠ [])
    (hmem : '/' ∉ c) : (acc ++ '/' :: c).getLast? ≠ some '/' := by
  intro h
  rw [show acc ++ '/' :: c = (acc ++ ['/']) ++ c by simp,
    List.getLast?_append_of_ne_nil _ hne] at h
  exact getLast?_ne_slash c hne hmem h

theorem foldl_joinTwo_clean (comps : List (List Char)) :
    ∀ acc : List Char, acc ≠ [] → acc.getLast? ≠ some '/' →
    (∀ c ∈ comps, c ≠ [] ∧ '/' ∉ c) →
    comps.foldl joinTwo acc = comps.foldl (fun a c => a ++ '/' :: c) acc := by
  induction comps with
  | nil => intro acc _ _ _; rfl
  | cons c rest ih =>
    intro acc hacc hlast hclean
    obtain ⟨hcne, hcmem⟩ := hclean c (List.mem_cons_self c rest)
    show rest.foldl joinTwo (joinTwo acc c) = rest.foldl _ (acc ++ '/' :: c)
    rw [joinTwo_clean acc c hacc hlast (head?_ne_slash c hcne hcmem)]
    exact ih (acc ++ '/' :: c) (by simp)
      (getLast?_append_cons_ne_slash acc c hcne hcmem)
      (fun d hd => hclean d (List.mem_cons_of_mem c hd))

theorem foldl_joinTwo_skip_empty (acc c : List Char) (rest : List (List Char))
    (hacc : acc ≠ []) (hlast : acc.getLast? ≠ some '/') (hc : c ≠ [])
    (hcs : '/' ∉ c) :
    ([] :: c :: rest).foldl joinTwo acc = (c :: rest).foldl joinTwo acc := by
  show rest.foldl joinTwo (joinTwo (joinTwo acc []) c) = rest.foldl joinTwo (joinTwo acc c)
  rw [joinTwo_after_empty acc c hacc hlast (head?_ne_slash c hc hcs),
    joinTwo_clean acc c hacc hlast (head?_ne_slash c hc hcs)]

theorem range3_zero : range3 0 = [] := rfl

theorem range3_pos (n : Nat) (h : 1 ≤ n) : range3 n = 0 :: posMults3 n := by
  unfold range3 posMults3
  have h1 : 1 ≤ (n + 2) / 3 := (Nat.one_le_div_iff (by norm_num)).mpr (by omega)
  rw [show (n + 2) / 3 = ((n + 2) / 3 - 1) + 1 by omega, List.range_succ_eq_map]
  simp [List.map_map, Function.comp]

theorem posMults3_mem (n i : Nat) (h : i ∈ posMults3 n) : 3 ≤ i ∧ i < n := by
  unfold posMults3 at h
  obtain ⟨k, hk, rfl⟩ := List.mem_map.mp h
  rw [List.mem_range] at hk
  have hdiv : (n + 2) / 3 * 3 ≤ n + 2 := Nat.div_mul_le_self (n + 2) 3
  omega

theorem escape_prefix_facts (key : List Char)
    (hpre : s3qlPre.isPrefixOf (escape key) = true) :
    escape key ≠ [] ∧ '/' ∉ escape key := by
  have hp : s3qlPre <+: escape key := by
    rw [← List.isPrefixOf_iff_prefix]
    exact hpre
  obtain ⟨t, ht⟩ := hp
  refine ⟨?_, (c9_escape_no_separator_no_null key).1⟩
  rw [← ht]
  simp [s3qlPre]

theorem osJoin_eq_inter (a : List Char) (rest : List (List Char))
    (ha : a ≠ []) (hal : a.getLast? ≠ some '/')
    (hrest : ∀ c ∈ rest, c ≠ [] ∧ '/' ∉ c) :
    osJoin (a :: rest) = intercalateSlash (a :: rest) := by
  show rest.foldl joinTwo a = rest.foldl (fun acc b => acc ++ '/' :: b) a
  exact foldl_joinTwo_clean rest a ha hal hrest

theorem osJoin_with_empty_level (name b : List Char) (rest : List (List Char))
    (hn : name ≠ []) (hnl : name.getLast? ≠ some '/')
    (hb : b ≠ []) (hbm : '/' ∉ b)
    (hrest : ∀ c ∈ rest, c ≠ [] ∧ '/' ∉ c) (hrne : rest ≠ []) :
    osJoin (name :: b :: [] :: rest) = intercalateSlash (name :: b :: rest) := by
  match rest, hrne with
  | c :: rest', _ =>
    obtain ⟨hcne, hcmem⟩ := hrest c (List.mem_cons_self c rest')
    have hjnb : joinTwo name b = name ++ '/' :: b :=
      joinTwo_clean name b hn hnl (head?_ne_slash b hb hbm)
    have hacc1ne : (name ++ '/' :: b) ≠ [] := by simp
    have hacc1l : (name ++ '/' :: b).getLast? ≠ some '/' :=
      getLast?_append_cons_ne_slash name b hb hbm
    calc osJoin (name :: b :: [] :: c :: rest')
        = ([] :: c :: rest').foldl joinTwo (joinTwo name b) := rfl
      _ = ([] :: c :: rest').foldl joinTwo (name ++ '/' :: b) := by rw [hjnb]
      _ = (c :: rest').foldl joinTwo (name ++ '/' :: b) :=
          foldl_joinTwo_skip_empty _ c rest' hacc1ne hacc1l hcne hcmem
      _ = (c :: rest').foldl (fun acc x => acc ++ '/' :: x) (name ++ '/' :: b) :=
          foldl_joinTwo_clean _ _ hacc1ne hacc1l hrest
      _ = intercalateSlash (name :: b :: c :: rest') := rfl

/-- C2 as amended: for every bucket name that is nonempty and does not end
in `'/'`, and every key whose escaped form starts with `"s3ql_data_"`,
`key_to_path` produces `name/s3ql_data/<L3>/<L6>/.../<escapedKey>` where
the levels are the prefixes of the suffix of lengths 3, 6, ... strictly
below the suffix length (the level of length 0 collapsing in the join). -/
theorem c2_shard_path_amended (name key : List Char) (hn : name ≠ [])
    (hnl : name.getLast? ≠ some '/')
    (hpre : s3qlPre.isPrefixOf (escape key) = true) :
    key_to_path name key = shardPathAmended name key := by
  obtain ⟨hkne, hkmem⟩ := escape_prefix_facts key hpre
  have hno : ∀ i, '/' ∉ ((escape key).drop 10).take i := by
    intro i hmem
    exact hkmem (List.drop_subset 10 (escape key) (List.take_subset i _ hmem))
  have hs3ne : ("s3ql_data".toList : List Char) ≠ [] := by decide
  have hs3mem : '/' ∉ ("s3ql_data".toList : List Char) := by decide
  have hlvl : ∀ c ∈ (posMults3 ((escape key).drop 10).length).map
      (fun i => ((escape key).drop 10).take i), c ≠ [] ∧ '/' ∉ c := by
    intro c hc
    obtain ⟨i, hi, rfl⟩ := List.mem_map.mp hc
    obtain ⟨h3, hlt⟩ := posMults3_mem _ i hi
    refine ⟨?_, hno i⟩
    have hlen : (((escape key).drop 10).take i).length = i := by
      rw [List.length_take]
      omega
    intro hnil
    rw [hnil] at hlen
    simp at hlen
    omega
  have htail : ∀ c ∈ (posMults3 ((escape key).drop 10).length).map
      (fun i => ((escape key).drop 10).take i) ++ [escape key], c ≠ [] ∧ '/' ∉ c := by
    intro c hc
    rcases List.mem_append.mp hc with h | h
    · exact hlvl c h
    · rcases List.mem_singleton.mp h with rfl
      exact ⟨hkne, hkmem⟩
  simp only [key_to_path, shardPathAmended]
  rw [if_pos hpre]
  by_cases hz : ((escape key).drop 10).length = 0
  · rw [hz, range3_zero, show posMults3 0 = [] from rfl]
    simp only [List.map_nil, List.nil_append, List.cons_append, List.append_nil]
    refine osJoin_eq_inter name ["s3ql_data".toList, escape key] hn hnl ?_
    intro c hc
    rcases List.mem_cons.mp hc with rfl | hc
    · exact ⟨hs3ne, hs3mem⟩
    · rcases List.mem_singleton.mp hc with rfl
      exact ⟨hkne, hkmem⟩
  · rw [range3_pos _ (by omega), List.map_cons, List.take_zero]
    simp only [List.cons_append, List.nil_append]
    exact osJoin_with_empty_level name "s3ql_data".toList _ hn hnl hs3ne hs3mem htail
      (by simp)

theorem c2_shard_path_amended_witness :
    key_to_path "bucket".toList "s3ql_data_0123456".toList
      = shardPathAmended "bucket".toList "s3ql_data_0123456".toList :=
  c2_shard_path_amended "bucket".toList "s3ql_data_0123456".toList
    (by decide) (by decide) (by decide)

/-!
## Path algebra: how `modifyChild` rewrites the tree
-/

theorem exceptMap_map {α β γ : Type} (g1 : α → β) (g2 : β → γ) (x : Except Err α) :
    (x.map g1).map g2 = x.map (fun a => g2 (g1 a)) := by
  cases x <;> rfl

theorem assocFind_setFirst_self (ch : List (List Char × Entry)) (n : List Char)
    (e' : Entry) : assocFind (setFirst ch n e') n = some e' := by
  induction ch with
  | nil => simp [setFirst, assocFind]
  | cons he rest ih =>
    obtain ⟨m, e⟩ := he
    by_cases h : m = n
    · simp [setFirst, assocFind, h]
    · simp [setFirst, assocFind, h, ih]

theorem setFirst_setFirst (ch : List (List Char × Entry)) (n : List Char)
    (y w : Entry) : setFirst (setFirst ch n y) n w = setFirst ch n w := by
  induction ch with
  | nil => simp [setFirst]
  | cons he rest ih =>
    obtain ⟨m, e⟩ := he
    by_cases h : m = n
    · simp [setFirst, h]
    · simp [setFirst, h, ih]

theorem assocFind_cons (m : List Char) (e : Entry) (rest : List (List Char × Entry))
    (n : List Char) :
    assocFind ((m, e) :: rest) n = if m = n then some e else assocFind rest n := rfl

theorem setFirst_self (ch : List (List Char × Entry)) (n : List Char) (e : Entry)
    (h : assocFind ch n = some e) : setFirst ch n e = ch := by
  induction ch with
  | nil => simp [assocFind] at h
  | cons he rest ih =>
    obtain ⟨m, e0⟩ := he
    by_cases hm : m = n
    · rw [assocFind_cons, if_pos hm, Option.some_inj] at h
      subst h
      simp [setFirst, hm]
    · rw [assocFind_cons, if_neg hm] at h
      simp [setFirst, hm, ih h]

theorem lookupE_cons_found {ch : List (List Char × Entry)} {q : List Char} {e : Entry}
    (qs : List (List Char)) (hfind : assocFind ch q = some e) :
    lookupE (q :: qs) (Entry.dir ch) = lookupE qs e := by
  rw [show lookupE (q :: qs) (Entry.dir ch)
      = (match assocFind ch q with
         | none => none
         | some e => lookupE qs e) from rfl, hfind]

theorem lookupE_cons_none {ch : List (List Char × Entry)} {q : List Char}
    (qs : List (List Char)) (hfind : assocFind ch q = none) :
    lookupE (q :: qs) (Entry.dir ch) = none := by
  rw [show lookupE (q :: qs) (Entry.dir ch)
      = (match assocFind ch q with
         | none => none
         | some e => lookupE qs e) from rfl, hfind]

theorem setAtE_cons_found {ch : List (List Char × Entry)} {q : List Char} {e : Entry}
    (qs : List (List Char)) (e' : Entry) (hfind : assocFind ch q = some e) :
    setAtE (q :: qs) e' (Entry.dir ch)
      = Entry.dir (setFirst ch q (setAtE qs e' e)) := by
  rw [show setAtE (q :: qs) e' (Entry.dir ch)
      = (match assocFind ch q with
         | none => Entry.dir ch
         | some e => Entry.dir (setFirst ch q (setAtE qs e' e))) from rfl, hfind]

theorem modifyChild_cons_found (f : Option Entry → Except Err (Option Entry))
    {ch : List (List Char × Entry)} {q : List Char} {e : Entry}
    (qs : List (List Char)) (n : List Char) (hfind : assocFind ch q = some e) :
    modifyChild f (q :: qs) n (Entry.dir ch)
      = (modifyChild f qs n e).map (fun e' => Entry.dir (setFirst ch q e')) := by
  rw [show modifyChild f (q :: qs) n (Entry.dir ch)
      = (match assocFind ch q with
         | none => Except.error Err.ENOENT
         | some e => (modifyChild f qs n e).map
             (fun e' => Entry.dir (setFirst ch q e'))) from rfl, hfind]

/-- Destructs `lookupE (q :: qs) fs = some x` into the directory step. -/
theorem lookupE_cons_inv {q : List Char} {qs : List (List Char)} {fs x : Entry}
    (hlk : lookupE (q :: qs) fs = some x) :
    ∃ ch e, fs = Entry.dir ch ∧ assocFind ch q = some e ∧ lookupE qs e = some x := by
  match fs with
  | .file c => exact absurd hlk (by simp [lookupE])
  | .dir ch =>
    match hfind : assocFind ch q with
    | none => rw [lookupE_cons_none qs hfind] at hlk; exact absurd hlk (by simp)
    | some e =>
      rw [lookupE_cons_found qs hfind] at hlk
      exact ⟨ch, e, rfl, hfind, hlk⟩

/-- `modifyChild` on a reachable parent directory: the result is `f`
applied to the looked-up child, spliced back with `setAtE`. -/
theorem modifyChild_spec (f : Option Entry → Except Err (Option Entry)) :
    ∀ (p : List (List Char)) (fs : Entry) (ch : List (List Char × Entry))
      (n : List Char), lookupE p fs = some (.dir ch) →
      modifyChild f p n fs
        = (f (assocFind ch n)).map (fun r => setAtE p (.dir (applyChild ch n r)) fs) := by
  intro p
  induction p with
  | nil =>
    intro fs ch n hlk
    have h : fs = Entry.dir ch := Option.some_inj.mp hlk
    subst h
    rfl
  | cons q qs ih =>
    intro fs ch n hlk
    obtain ⟨ch0, e, rfl, hfind, hlk'⟩ := lookupE_cons_inv hlk
    rw [modifyChild_cons_found f qs n hfind, ih e ch n hlk', exceptMap_map]
    congr 1
    funext r
    rw [setAtE_cons_found qs (Entry.dir (applyChild ch n r)) hfind]

theorem lookupE_setAtE_self :
    ∀ (p : List (List Char)) (fs : Entry) (x e' : Entry),
      lookupE p fs = some x → lookupE p (setAtE p e' fs) = some e' := by
  intro p
  induction p with
  | nil => intro fs x e' _; rfl
  | cons q qs ih =>
    intro fs x e' hlk
    obtain ⟨ch0, e, rfl, hfind, hlk'⟩ := lookupE_cons_inv hlk
    rw [setAtE_cons_found qs e' hfind,
      lookupE_cons_found qs (assocFind_setFirst_self ch0 q (setAtE qs e' e))]
    exact ih e x e' hlk'

theorem setAtE_setAtE :
    ∀ (p : List (List Char)) (fs : Entry) (x e1 e2 : Entry),
      lookupE p fs = some x → setAtE p e1 (setAtE p e2 fs) = setAtE p e1 fs := by
  intro p
  induction p with
  | nil => intro fs x e1 e2 _; rfl
  | cons q qs ih =>
    intro fs x e1 e2 hlk
    obtain ⟨ch0, e, rfl, hfind, hlk'⟩ := lookupE_cons_inv hlk
    rw [setAtE_cons_found qs e2 hfind,
      setAtE_cons_found qs e1 (assocFind_setFirst_self ch0 q (setAtE qs e2 e)),
      setFirst_setFirst, ih e x e1 e2 hlk', setAtE_cons_found qs e1 hfind]

theorem setAtE_id :
    ∀ (p : List (List Char)) (fs e : Entry),
      lookupE p fs = some e → setAtE p e fs = fs := by
  intro p
  induction p with
  | nil =>
    intro fs e hlk
    exact (Option.some_inj.mp hlk).symm
  | cons q qs ih =>
    intro fs e hlk
    obtain ⟨ch0, e2, rfl, hfind, hlk'⟩ := lookupE_cons_inv hlk
    rw [setAtE_cons_found qs e hfind, ih e2 e hlk', setFirst_self ch0 q e2 hfind]

theorem lookupE_append :
    ∀ (p q : List (List Char)) (fs : Entry),
      lookupE (p ++ q) fs = (lookupE p fs).bind (lookupE q) := by
  intro p
  induction p with
  | nil => intro q fs; rfl
  | cons a rest ih =>
    intro q fs
    match fs with
    | .file c => rfl
    | .dir ch =>
      match hfind : assocFind ch a with
      | none =>
        rw [show lookupE ((a :: rest) ++ q) (Entry.dir ch)
            = lookupE (a :: (rest ++ q)) (Entry.dir ch) from rfl,
          lookupE_cons_none (rest ++ q) hfind, lookupE_cons_none rest hfind]
        rfl
      | some e =>
        rw [show lookupE ((a :: rest) ++ q) (Entry.dir ch)
            = lookupE (a :: (rest ++ q)) (Entry.dir ch) from rfl,
          lookupE_cons_found (rest ++ q) hfind, lookupE_cons_found rest hfind]
        exact ih q e

theorem lookupE_singleton (n : List Char) (ch : List (List Char × Entry)) :
    lookupE [n] (Entry.dir ch) = assocFind ch n := by
  match hfind : assocFind ch n with
  | none => rw [lookupE_cons_none [] hfind]
  | some e => rw [lookupE_cons_found [] hfind]; rfl

theorem lookupE_parent {p : List (List Char)} {n : List Char} {fs x : Entry}
    (h : lookupE (p ++ [n]) fs = some x) :
    ∃ ch, lookupE p fs = some (.dir ch) ∧ assocFind ch n = some x := by
  rw [lookupE_append] at h
  match hp : lookupE p fs with
  | none => rw [hp] at h; exact absurd h (by simp)
  | some e =>
    rw [hp] at h
    have h2 : lookupE [n] e = some x := h
    match e with
    | .file c => exact absurd h2 (by simp [lookupE])
    | .dir ch =>
      rw [lookupE_singleton] at h2
      exact ⟨ch, rfl, h2⟩

theorem lookupE_child {p : List (List Char)} {n : List Char} {fs : Entry}
    {ch : List (List Char × Entry)} (h : lookupE p fs = some (.dir ch)) :
    lookupE (p ++ [n]) fs = assocFind ch n := by
  rw [lookupE_append, h]
  show lookupE [n] (Entry.dir ch) = _
  exact lookupE_singleton n ch

theorem setAtE_append_child :
    ∀ (p : List (List Char)) (fs : Entry) (ch : List (List Char × Entry))
      (n : List Char) (e0 e' : Entry),
      lookupE p fs = some (.dir ch) → assocFind ch n = some e0 →
      setAtE (p ++ [n]) e' fs = setAtE p (.dir (setFirst ch n e')) fs := by
  intro p
  induction p with
  | nil =>
    intro fs ch n e0 e' hlk hfind
    have h : fs = Entry.dir ch := Option.some_inj.mp hlk
    subst h
    rw [show ([] : List (List Char)) ++ [n] = [n] from rfl,
      setAtE_cons_found [] e' hfind]
    rfl
  | cons q qs ih =>
    intro fs ch n e0 e' hlk hfind
    obtain ⟨ch0, e, rfl, hfq, hlk'⟩ := lookupE_cons_inv hlk
    rw [show (q :: qs) ++ [n] = q :: (qs ++ [n]) from rfl,
      setAtE_cons_found (qs ++ [n]) e' hfq, ih e ch n e0 e' hlk' hfind,
      setAtE_cons_found qs (Entry.dir (setFirst ch n e')) hfq]

/-!
## `Connection.delete_bucket` and `Connection._rmtree` (C7)

`_rmtree` (sftp.py lines 72-81) lists a directory, recursing into each
subdirectory and removing it with `rmdir` after it has been cleared, and
removing each file; `delete_bucket` (lines 61-70) checks existence, runs
`_rmtree` when `recursive`, and finally `rmdir`s the bucket itself.

We model the recursion by the exact sequence of remote calls it issues
(`rmtreeOpsL`, computed from the subtree in the pre-state, in the order
the Python loops visit it) and replay that sequence against the evolving
filesystem.  The replay theorem below shows every call succeeds -- each
`remove` finds its file and each `rmdir` finds an already-emptied
directory (the bottom-up order) -- which also justifies computing the
listings from the pre-state: the recursion never revisits what it has
already deleted.
-/

inductive Op where
  | remove (p : List (List Char))
  | rmdir (p : List (List Char))

def applyOp (fs : Entry) : Op → Except Err Entry
  | .remove p => removeC fs p
  | .rmdir p => rmdirC fs p

def replay : Entry → List Op → Entry × Option Err
  | fs, [] => (fs, none)
  | fs, op :: rest =>
    match applyOp fs op with
    | .ok fs' => replay fs' rest
    | .error e => (fs, some e)

/-- The remote calls `_rmtree(p)` issues for a directory whose listing is
`ch`: files are removed; each subdirectory is recursively cleared, then
removed with `rmdir`. -/
def rmtreeOpsL (p : List (List Char)) : List (List Char × Entry) → List Op
  | [] => []
  | (n, .file _) :: rest => .remove (p ++ [n]) :: rmtreeOpsL p rest
  | (n, .dir ch) :: rest =>
    rmtreeOpsL (p ++ [n]) ch ++ .rmdir (p ++ [n]) :: rmtreeOpsL p rest

def rmtreeOps (p : List (List Char)) : Entry → List Op
  | .file _ => []
  | .dir ch => rmtreeOpsL p ch

/-- `Connection.delete_bucket`: `KeyError` when nothing exists at `name`;
otherwise (the `_rmtree` calls when `recursive`, then) `rmdir name`. -/
def delete_bucket (fs : Entry) (name : List Char) (recursive : Bool) :
    Entry × Option PyErr :=
  match lookupE (normP name) fs with
  | none => (fs, some .keyError)
  | some e =>
    let tr := if recursive then rmtreeOps (normP name) e else []
    match replay fs (tr ++ [.rmdir (normP name)]) with
    | (fs', none) => (fs', none)
    | (fs', some err) => (fs', some (.ioError err))

def keyCount : List (List Char × Entry) → List Char → Nat
  | [], _ => 0
  | (m, _) :: rest, n => (if m = n then 1 else 0) + keyCount rest n

theorem assocFind_none_of_keyCount_zero (ch : List (List Char × Entry))
    (n : List Char) (h : keyCount ch n = 0) : assocFind ch n = none := by
  induction ch with
  | nil => rfl
  | cons he rest ih =>
    obtain ⟨m, e⟩ := he
    by_cases hm : m = n
    · exfalso
      rw [show keyCount ((m, e) :: rest) n
          = (if m = n then 1 else 0) + keyCount rest n from rfl, if_pos hm] at h
      omega
    · rw [show keyCount ((m, e) :: rest) n
          = (if m = n then 1 else 0) + keyCount rest n from rfl, if_neg hm] at h
      rw [assocFind_cons, if_neg hm]
      exact ih (by omega)

theorem assocFind_eraseFirst_none (ch : List (List Char × Entry)) (n : List Char)
    (h : keyCount ch n ≤ 1) : assocFind (eraseFirst ch n) n = none := by
  induction ch with
  | nil => rfl
  | cons he rest ih =>
    obtain ⟨m, e⟩ := he
    rw [show keyCount ((m, e) :: rest) n
        = (if m = n then 1 else 0) + keyCount rest n from rfl] at h
    by_cases hm : m = n
    · rw [if_pos hm] at h
      rw [show eraseFirst ((m, e) :: rest) n
          = if m = n then rest else (m, e) :: eraseFirst rest n from rfl, if_pos hm]
      exact assocFind_none_of_keyCount_zero rest n (by omega)
    · rw [if_neg hm] at h
      rw [show eraseFirst ((m, e) :: rest) n
          = if m = n then rest else (m, e) :: eraseFirst rest n from rfl, if_neg hm,
        assocFind_cons, if_neg hm]
      exact ih (by omega)

theorem keyCount_setFirst_le_one (ch : List (List Char × Entry)) (n : List Char)
    (e' : Entry) (h : keyCount ch n ≤ 1) : keyCount (setFirst ch n e') n ≤ 1 := by
  induction ch with
  | nil => simp [setFirst, keyCount]
  | cons he rest ih =>
    obtain ⟨m, e⟩ := he
    rw [show keyCount ((m, e) :: rest) n
        = (if m = n then 1 else 0) + keyCount rest n from rfl] at h
    by_cases hm : m = n
    · rw [if_pos hm] at h
      rw [show setFirst ((m, e) :: rest) n e'
          = if m = n then (m, e') :: rest else (m, e) :: setFirst rest n e' from rfl,
        if_pos hm,
        show keyCount ((m, e') :: rest) n
          = (if m = n then 1 else 0) + keyCount rest n from rfl, if_pos hm]
      omega
    · rw [if_neg hm] at h
      rw [show setFirst ((m, e) :: rest) n e'
          = if m = n then (m, e') :: rest else (m, e) :: setFirst rest n e' from rfl,
        if_neg hm,
        show keyCount ((m, e) :: setFirst rest n e') n
          = (if m = n then 1 else 0) + keyCount (setFirst rest n e') n from rfl,
        if_neg hm]
      have := ih (by omega)
      omega

theorem splitLast_append {α : Type} : ∀ (p : List α) (n : α),
    splitLast (p ++ [n]) = some (p, n) := by
  intro p
  induction p with
  | nil => intro n; rfl
  | cons a rest ih =>
    intro n
    cases rest with
    | nil => rfl
    | cons b rest' =>
      show (match splitLast ((b :: rest') ++ [n]) with
        | none => none
        | some (p, x) => some (a :: p, x)) = some (a :: b :: rest', n)
      rw [ih n]

theorem removeC_append (fs : Entry) (p : List (List Char)) (n : List Char) :
    removeC fs (p ++ [n]) = modifyChild remF p n fs := by
  unfold removeC
  rw [splitLast_append]

theorem rmdirC_append (fs : Entry) (p : List (List Char)) (n : List Char) :
    rmdirC fs (p ++ [n]) = modifyChild rmdF p n fs := by
  unfold rmdirC
  rw [splitLast_append]

theorem mkdirC_append (fs : Entry) (p : List (List Char)) (n : List Char) :
    mkdirC fs (p ++ [n]) = modifyChild mkdF p n fs := by
  unfold mkdirC
  rw [splitLast_append]

theorem writeC_append (fs : Entry) (p : List (List Char)) (n : List Char) (d : Nat) :
    writeC fs (p ++ [n]) d = modifyChild (wrF d) p n fs := by
  unfold writeC
  rw [splitLast_append]

/-- Replaying the `_rmtree` call sequence for a reachable directory
succeeds (every `remove` hits an existing file, every `rmdir` hits an
already emptied directory) and leaves that directory empty. -/
theorem replay_rmtreeOpsL :
    ∀ (N : Nat) (ch : List (List Char × Entry)) (p : List (List Char)) (fs : Entry),
      sizeOf ch ≤ N →
      lookupE p fs = some (.dir ch) →
      replay fs (rmtreeOpsL p ch) = (setAtE p (.dir []) fs, none) := by
  intro N
  induction N with
  | zero =>
    intro ch p fs hsz hlk
    exfalso
    cases ch <;> simp_arith at hsz
  | succ N ihN =>
    intro ch p fs hsz hlk
    match ch with
    | [] =>
      rw [show rmtreeOpsL p [] = [] from by simp [rmtreeOpsL],
        show replay fs [] = (fs, none) from rfl,
        setAtE_id p fs (.dir []) hlk]
    | (n, .file c) :: rest =>
      have hrem : removeC fs (p ++ [n]) = .ok (setAtE p (.dir rest) fs) := by
        rw [removeC_append, modifyChild_spec remF p fs _ n hlk]
        rw [show assocFind ((n, Entry.file c) :: rest) n = some (.file c) by
          rw [assocFind_cons, if_pos rfl]]
        rw [show remF (some (.file c)) = .ok none from rfl]
        show Except.ok (setAtE p
          (Entry.dir (eraseFirst ((n, Entry.file c) :: rest) n)) fs) = _
        rw [show eraseFirst ((n, Entry.file c) :: rest) n = rest by
          rw [show eraseFirst ((n, Entry.file c) :: rest) n
              = if n = n then rest else (n, Entry.file c) :: eraseFirst rest n from rfl,
            if_pos rfl]]
      rw [show rmtreeOpsL p ((n, Entry.file c) :: rest)
          = Op.remove (p ++ [n]) :: rmtreeOpsL p rest from by simp [rmtreeOpsL]]
      rw [show replay fs (Op.remove (p ++ [n]) :: rmtreeOpsL p rest)
          = (match applyOp fs (Op.remove (p ++ [n])) with
             | .ok fs' => replay fs' (rmtreeOpsL p rest)
             | .error e => (fs, some e)) from rfl,
        show applyOp fs (Op.remove (p ++ [n])) = removeC fs (p ++ [n]) from rfl, hrem]
      have hlk1 : lookupE p (setAtE p (.dir rest) fs) = some (.dir rest) :=
        lookupE_setAtE_self p fs _ _ hlk
      have hsz1 : sizeOf rest ≤ N := by simp_arith at hsz; omega
      show replay (setAtE p (Entry.dir rest) fs) (rmtreeOpsL p rest)
        = (setAtE p (Entry.dir []) fs, none)
      rw [ihN rest p (setAtE p (.dir rest) fs) hsz1 hlk1,
        setAtE_setAtE p fs _ (.dir []) (.dir rest) hlk]
    | (n, .dir ch2) :: rest =>
      have hfind : assocFind ((n, Entry.dir ch2) :: rest) n = some (.dir ch2) := by
        rw [assocFind_cons, if_pos rfl]
      have hlk2 : lookupE (p ++ [n]) fs = some (.dir ch2) := by
        rw [lookupE_child hlk, hfind]
      have hsz2 : sizeOf ch2 ≤ N := by simp_arith at hsz; omega
      have hszr : sizeOf rest ≤ N := by simp_arith at hsz; omega
      rw [show rmtreeOpsL p ((n, Entry.dir ch2) :: rest)
          = rmtreeOpsL (p ++ [n]) ch2 ++ Op.rmdir (p ++ [n]) :: rmtreeOpsL p rest from by
        simp [rmtreeOpsL]]
      have hreplay1 : replay fs (rmtreeOpsL (p ++ [n]) ch2)
          = (setAtE (p ++ [n]) (.dir []) fs, none) :=
        ihN ch2 (p ++ [n]) fs hsz2 hlk2
      have happ : ∀ (a b : List Op) (g : Entry) (g1 : Entry),
          replay g a = (g1, none) → replay g (a ++ b) = replay g1 b := by
        intro a
        induction a with
        | nil =>
          intro b g g1 h
          have hg : g = g1 := congrArg Prod.fst h
          rw [← hg]
          rfl
        | cons op resta ihA =>
          intro b g g1 h
          show (match applyOp g op with
            | .ok fs' => replay fs' (resta ++ b)
            | .error e => (g, some e)) = replay g1 b
          rw [show replay g (op :: resta)
              = (match applyOp g op with
                 | .ok fs' => replay fs' resta
                 | .error e => (g, some e)) from rfl] at h
          match hop : applyOp g op with
          | .ok fs' =>
            rw [hop] at h
            exact ihA b fs' g1 h
          | .error e =>
            rw [hop] at h
            exact absurd (congrArg Prod.snd h) (by simp)
      rw [happ _ _ fs _ hreplay1]
      have hfs2 : setAtE (p ++ [n]) (Entry.dir []) fs
          = setAtE p (.dir (setFirst ((n, Entry.dir ch2) :: rest) n (.dir []))) fs :=
        setAtE_append_child p fs _ n (.dir ch2) (.dir []) hlk hfind
      have hsetf : setFirst ((n, Entry.dir ch2) :: rest) n (Entry.dir [])
          = (n, Entry.dir []) :: rest := by
        rw [show setFirst ((n, Entry.dir ch2) :: rest) n (Entry.dir [])
            = if n = n then (n, Entry.dir []) :: rest
              else (n, Entry.dir ch2) :: setFirst rest n (Entry.dir []) from rfl,
          if_pos rfl]
      have hlkfs2 : lookupE p (setAtE (p ++ [n]) (Entry.dir []) fs)
          = some (.dir ((n, Entry.dir []) :: rest)) := by
        rw [hfs2, hsetf]
        exact lookupE_setAtE_self p fs _ _ hlk
      have hrmdir : rmdirC (setAtE (p ++ [n]) (Entry.dir []) fs) (p ++ [n])
          = .ok (setAtE p (.dir rest) fs) := by
        rw [rmdirC_append, modifyChild_spec rmdF p _ _ n hlkfs2]
        rw [show assocFind ((n, Entry.dir []) :: rest) n = some (.dir []) by
          rw [assocFind_cons, if_pos rfl]]
        rw [show rmdF (some (.dir [])) = .ok none from rfl]
        show Except.ok (setAtE p
            (Entry.dir (eraseFirst ((n, Entry.dir []) :: rest) n))
            (setAtE (p ++ [n]) (Entry.dir []) fs)) = _
        rw [show eraseFirst ((n, Entry.dir []) :: rest) n = rest by
          rw [show eraseFirst ((n, Entry.dir []) :: rest) n
              = if n = n then rest else (n, Entry.dir []) :: eraseFirst rest n from rfl,
            if_pos rfl]]
        rw [hfs2, setAtE_setAtE p fs _ (.dir rest) _ hlk]
      rw [show replay (setAtE (p ++ [n]) (Entry.dir []) fs)
            (Op.rmdir (p ++ [n]) :: rmtreeOpsL p rest)
          = (match applyOp (setAtE (p ++ [n]) (Entry.dir []) fs) (Op.rmdir (p ++ [n])) with
             | .ok fs' => replay fs' (rmtreeOpsL p rest)
             | .error e => (setAtE (p ++ [n]) (Entry.dir []) fs, some e)) from rfl,
        show applyOp (setAtE (p ++ [n]) (Entry.dir []) fs) (Op.rmdir (p ++ [n]))
          = rmdirC (setAtE (p ++ [n]) (Entry.dir []) fs) (p ++ [n]) from rfl, hrmdir]
      have hlk3 : lookupE p (setAtE p (.dir rest) fs) = some (.dir rest) :=
        lookupE_setAtE_self p fs _ _ hlk
      show replay (setAtE p (Entry.dir rest) fs) (rmtreeOpsL p rest)
        = (setAtE p (Entry.dir []) fs, none)
      rw [ihN rest p (setAtE p (.dir rest) fs) hszr hlk3,
        setAtE_setAtE p fs _ (.dir []) (.dir rest) hlk]

theorem splitLast_eq {α : Type} :
    ∀ (l : List α) (p : List α) (n : α), splitLast l = some (p, n) → l = p ++ [n] := by
  intro l
  induction l with
  | nil => intro p n h; exact absurd h (by simp [splitLast])
  | cons a rest ih =>
    intro p n h
    cases rest with
    | nil =>
      have h2 : some (([] : List α), a) = some (p, n) := h
      obtain ⟨h3, h4⟩ := Prod.mk.injEq .. ▸ Option.some_inj.mp h2
      rw [← h3, ← h4]
      rfl
    | cons b rest' =>
      rw [show splitLast (a :: b :: rest')
          = (match splitLast (b :: rest') with
             | none => none
             | some (p, x) => some (a :: p, x)) from rfl] at h
      match hs : splitLast (b :: rest') with
      | none => rw [hs] at h; exact absurd h (by simp)
      | some (p', x) =>
        rw [hs] at h
        have h2 : some (a :: p', x) = some (p, n) := h
        obtain ⟨h3, h4⟩ := Prod.mk.injEq .. ▸ Option.some_inj.mp h2
        rw [← h3, ← h4, ih p' x hs]
        rfl

theorem replay_append_ok :
    ∀ (a b : List Op) (g g1 : Entry),
      replay g a = (g1, none) → replay g (a ++ b) = replay g1 b := by
  intro a
  induction a with
  | nil =>
    intro b g g1 h
    have hg : g = g1 := congrArg Prod.fst h
    rw [← hg]
    rfl
  | cons op resta ihA =>
    intro b g g1 h
    show (match applyOp g op with
      | .ok fs' => replay fs' (resta ++ b)
      | .error e => (g, some e)) = replay g1 b
    rw [show replay g (op :: resta)
        = (match applyOp g op with
           | .ok fs' => replay fs' resta
           | .error e => (g, some e)) from rfl] at h
    match hop : applyOp g op with
    | .ok fs' =>
      rw [hop] at h
      exact ihA b fs' g1 h
    | .error e =>
      rw [hop] at h
      exact absurd (congrArg Prod.snd h) (by simp)

/-- C7: `delete_bucket` raises `KeyError` when nothing exists at the
bucket name; with `recursive = false` on a non-empty bucket directory the
remote `rmdir` failure (`ENOTEMPTY`) propagates with the state unchanged;
with `recursive = true` the replayed `_rmtree` call sequence succeeds
bottom-up and the final `rmdir` leaves the bucket name absent (assuming
the parent directory does not list the name twice). -/
theorem c7_delete_bucket_spec :
    (∀ (fs : Entry) (name : List Char) (recursive : Bool),
       lookupE (normP name) fs = none →
       delete_bucket fs name recursive = (fs, some .keyError))
    ∧ (∀ (fs : Entry) (name : List Char) (p : List (List Char)) (n : List Char)
         (ch : List (List Char × Entry)),
       splitLast (normP name) = some (p, n) →
       lookupE (normP name) fs = some (.dir ch) → ch ≠ [] →
       delete_bucket fs name false = (fs, some (.ioError .ENOTEMPTY)))
    ∧ (∀ (fs : Entry) (name : List Char) (p : List (List Char)) (n : List Char)
         (ch : List (List Char × Entry)),
       splitLast (normP name) = some (p, n) →
       lookupE (normP name) fs = some (.dir ch) →
       (∀ chp, lookupE p fs = some (.dir chp) → keyCount chp n ≤ 1) →
       ∃ fs', delete_bucket fs name true = (fs', none) ∧
         lookupE (normP name) fs' = none) := by
  refine ⟨?_, ?_, ?_⟩
  · intro fs name recursive h
    simp only [delete_bucket]
    rw [h]
  · intro fs name p n ch hs hlk hne
    have heq : normP name = p ++ [n] := splitLast_eq _ p n hs
    rw [heq] at hlk
    obtain ⟨chp, hp, hfindp⟩ := lookupE_parent hlk
    have hrm : rmdirC fs (p ++ [n]) = .error .ENOTEMPTY := by
      rw [rmdirC_append, modifyChild_spec rmdF p fs chp n hp, hfindp]
      match ch, hne with
      | c0 :: ch', _ => rfl
    simp only [delete_bucket]
    rw [heq, hlk]
    show (match replay fs ((if false = true then rmtreeOps (p ++ [n]) (Entry.dir ch) else [])
          ++ [Op.rmdir (p ++ [n])]) with
      | (fs', none) => (fs', none)
      | (fs', some err) => (fs', some (PyErr.ioError err)))
      = (fs, some (PyErr.ioError Err.ENOTEMPTY))
    rw [show replay fs ((if false = true then rmtreeOps (p ++ [n]) (Entry.dir ch) else [])
          ++ [Op.rmdir (p ++ [n])])
        = (match rmdirC fs (p ++ [n]) with
           | .ok fs' => replay fs' []
           | .error e => (fs, some e)) from rfl, hrm]
  · intro fs name p n ch hs hlk hcnt
    have heq : normP name = p ++ [n] := splitLast_eq _ p n hs
    rw [heq] at hlk ⊢
    obtain ⟨chp, hp, hfindp⟩ := lookupE_parent hlk
    have hcount : keyCount chp n ≤ 1 := hcnt chp hp
    have hRL : replay fs (rmtreeOpsL (p ++ [n]) ch)
        = (setAtE (p ++ [n]) (.dir []) fs, none) :=
      replay_rmtreeOpsL (sizeOf ch) ch (p ++ [n]) fs (Nat.le_refl _) hlk
    have hfs2 : setAtE (p ++ [n]) (Entry.dir []) fs
        = setAtE p (.dir (setFirst chp n (.dir []))) fs :=
      setAtE_append_child p fs chp n (.dir ch) (.dir []) hp hfindp
    have hlkp2 : lookupE p (setAtE (p ++ [n]) (Entry.dir []) fs)
        = some (.dir (setFirst chp n (.dir []))) := by
      rw [hfs2]
      exact lookupE_setAtE_self p fs _ _ hp
    have hrm : rmdirC (setAtE (p ++ [n]) (Entry.dir []) fs) (p ++ [n])
        = .ok (setAtE p (.dir (eraseFirst (setFirst chp n (.dir [])) n))
            (setAtE (p ++ [n]) (Entry.dir []) fs)) := by
      rw [rmdirC_append, modifyChild_spec rmdF p _ _ n hlkp2,
        assocFind_setFirst_self]
      rfl
    have hlkp3 : lookupE p (setAtE p (.dir (eraseFirst (setFirst chp n (.dir [])) n))
          (setAtE (p ++ [n]) (Entry.dir []) fs))
        = some (.dir (eraseFirst (setFirst chp n (.dir [])) n)) := by
      have hx : lookupE p (setAtE (p ++ [n]) (Entry.dir []) fs)
          = some (.dir (setFirst chp n (.dir []))) := hlkp2
      exact lookupE_setAtE_self p _ _ _ hx
    have hfinal : lookupE (p ++ [n])
        (setAtE p (.dir (eraseFirst (setFirst chp n (.dir [])) n))
          (setAtE (p ++ [n]) (Entry.dir []) fs)) = none := by
      rw [lookupE_child hlkp3]
      exact assocFind_eraseFirst_none _ n (keyCount_setFirst_le_one chp n _ hcount)
    refine ⟨_, ?_, hfinal⟩
    simp only [delete_bucket]
    rw [heq, hlk]
    show (match replay fs ((if true = true then rmtreeOps (p ++ [n]) (Entry.dir ch) else [])
          ++ [Op.rmdir (p ++ [n])]) with
      | (fs', none) => (fs', none)
      | (fs', some err) => (fs', some (PyErr.ioError err)))
      = (setAtE p (.dir (eraseFirst (setFirst chp n (.dir [])) n))
          (setAtE (p ++ [n]) (Entry.dir []) fs), none)
    rw [show ((if true = true then rmtreeOps (p ++ [n]) (Entry.dir ch) else [])
          ++ [Op.rmdir (p ++ [n])])
        = rmtreeOpsL (p ++ [n]) ch ++ [Op.rmdir (p ++ [n])] from by
      rw [if_pos rfl]; simp [rmtreeOps]]
    rw [replay_append_ok _ _ fs _ hRL]
    rw [show replay (setAtE (p ++ [n]) (Entry.dir []) fs) [Op.rmdir (p ++ [n])]
        = (match rmdirC (setAtE (p ++ [n]) (Entry.dir []) fs) (p ++ [n]) with
           | .ok fs' => replay fs' []
           | .error e => (setAtE (p ++ [n]) (Entry.dir []) fs, some e)) from rfl, hrm]
    rfl

/-- The bucket state used to witness C7: one file and one non-empty
subdirectory. -/
def fsW : Entry :=
  .dir [("bucket".toList,
    .dir [("a.dat".toList, .file 1), ("sub".toList, .dir [("b.dat".toList, .file 2)])])]

theorem c7_delete_bucket_spec_witness :
    delete_bucket (.dir []) "bucket".toList true = (.dir [], some .keyError) ∧
    delete_bucket fsW "bucket".toList false = (fsW, some (.ioError .ENOTEMPTY)) ∧
    (∃ fs', delete_bucket fsW "bucket".toList true = (fs', none) ∧
      lookupE (normP "bucket".toList) fs' = none) := by
  refine ⟨c7_delete_bucket_spec.1 (.dir []) "bucket".toList true rfl,
    c7_delete_bucket_spec.2.1 fsW "bucket".toList [] "bucket".toList _ rfl rfl
      (by simp),
    c7_delete_bucket_spec.2.2 fsW "bucket".toList [] "bucket".toList _ rfl rfl ?_⟩
  intro chp h
  have h2 : fsW = Entry.dir chp := Option.some_inj.mp h
  have h3 : [("bucket".toList,
      Entry.dir [("a.dat".toList, Entry.file 1),
        ("sub".toList, Entry.dir [("b.dat".toList, Entry.file 2)])])] = chp := by
    injection h2
  rw [← h3]
  decide

/-!
## Raw-path plumbing for `raw_store` (C5)

`raw_store` recovers a missing parent directory by calling
`_makedirs(os.path.dirname(path))`.  The lemmas below relate the raw
strings (`os.path.join` output, `dirname`, `split('/')`) to the
normalized component lists the filesystem model operates on.
-/

theorem foldl_slash_hoist (r : List (List Char)) :
    ∀ (x y : List Char),
      r.foldl (fun acc c => acc ++ '/' :: c) (x ++ y)
        = x ++ r.foldl (fun acc c => acc ++ '/' :: c) y := by
  induction r with
  | nil => intro x y; rfl
  | cons c r' ih =>
    intro x y
    show r'.foldl _ ((x ++ y) ++ '/' :: c) = x ++ r'.foldl _ (y ++ '/' :: c)
    rw [List.append_assoc]
    exact ih x (y ++ '/' :: c)

theorem interSlash_cons_cons (a b : List Char) (rest : List (List Char)) :
    intercalateSlash (a :: b :: rest) = a ++ '/' :: intercalateSlash (b :: rest) := by
  show rest.foldl (fun acc c => acc ++ '/' :: c) (a ++ '/' :: b)
    = a ++ '/' :: rest.foldl (fun acc c => acc ++ '/' :: c) b
  calc rest.foldl (fun acc c => acc ++ '/' :: c) (a ++ '/' :: b)
      = rest.foldl (fun acc c => acc ++ '/' :: c) (a ++ (['/'] ++ b)) := by simp
    _ = a ++ rest.foldl (fun acc c => acc ++ '/' :: c) (['/'] ++ b) :=
        foldl_slash_hoist rest a (['/'] ++ b)
    _ = a ++ (['/'] ++ rest.foldl (fun acc c => acc ++ '/' :: c) b) := by
        rw [foldl_slash_hoist rest ['/'] b]
    _ = a ++ '/' :: rest.foldl (fun acc c => acc ++ '/' :: c) b := by simp

theorem interSlash_append_last (init : List (List Char)) (l : List Char) :
    init ≠ [] →
    intercalateSlash (init ++ [l]) = intercalateSlash init ++ '/' :: l := by
  induction init with
  | nil => intro h; exact absurd rfl h
  | cons a init' ih =>
    intro _
    cases init' with
    | nil => rfl
    | cons b init'' =>
      rw [show (a :: b :: init'') ++ [l] = a :: ((b :: init'') ++ [l]) from rfl,
        show (b :: init'') ++ [l] = b :: (init'' ++ [l]) from rfl]
      rw [interSlash_cons_cons a b (init'' ++ [l]),
        show b :: (init'' ++ [l]) = (b :: init'') ++ [l] from rfl,
        ih (by simp), interSlash_cons_cons a b init'']
      simp

theorem interSlash_extend_last (init : List (List Char)) (l suf : List Char) :
    intercalateSlash (init ++ [l]) ++ suf = intercalateSlash (init ++ [l ++ suf]) := by
  cases init with
  | nil => rfl
  | cons a init' =>
    rw [interSlash_append_last (a :: init') l (by simp),
      interSlash_append_last (a :: init') (l ++ suf) (by simp)]
    simp

theorem splitSlashGo_append (y : List Char) :
    ∀ (x cur : List Char),
      splitSlashGo cur (x ++ '/' :: y) = splitSlashGo cur x ++ splitSlash y := by
  intro x
  induction x with
  | nil =>
    intro cur
    show cur.reverse :: splitSlashGo [] y = [cur.reverse] ++ splitSlash y
    rfl
  | cons c x' ih =>
    intro cur
    by_cases hc : c = '/'
    · subst hc
      show splitSlashGo cur ('/' :: (x' ++ '/' :: y))
        = splitSlashGo cur ('/' :: x') ++ splitSlash y
      rw [show splitSlashGo cur ('/' :: (x' ++ '/' :: y))
          = cur.reverse :: splitSlashGo [] (x' ++ '/' :: y) from rfl,
        ih [],
        show splitSlashGo cur ('/' :: x') = cur.reverse :: splitSlashGo [] x' from rfl]
      rfl
    · show splitSlashGo cur (c :: (x' ++ '/' :: y))
        = splitSlashGo cur (c :: x') ++ splitSlash y
      rw [show splitSlashGo cur (c :: (x' ++ '/' :: y))
          = if c = '/' then cur.reverse :: splitSlashGo [] (x' ++ '/' :: y)
            else splitSlashGo (c :: cur) (x' ++ '/' :: y) from rfl,
        if_neg hc, ih (c :: cur),
        show splitSlashGo cur (c :: x')
          = if c = '/' then cur.reverse :: splitSlashGo [] x'
            else splitSlashGo (c :: cur) x' from rfl,
        if_neg hc]

theorem splitSlashGo_no_slash (cs : List Char) :
    ∀ cur, '/' ∉ cs → splitSlashGo cur cs = [cur.reverse ++ cs] := by
  induction cs with
  | nil => intro cur _; simp [splitSlashGo]
  | cons c cs' ih =>
    intro cur hmem
    have hc : c ≠ '/' := fun h => hmem (h ▸ List.mem_cons_self c cs')
    rw [show splitSlashGo cur (c :: cs')
        = if c = '/' then cur.reverse :: splitSlashGo [] cs'
          else splitSlashGo (c :: cur) cs' from rfl,
      if_neg hc, ih (c :: cur) (fun h => hmem (List.mem_cons_of_mem c h))]
    simp

theorem splitSlash_no_slash (c : List Char) (h : '/' ∉ c) : splitSlash c = [c] := by
  unfold splitSlash
  rw [splitSlashGo_no_slash c [] h]
  rfl

theorem splitSlash_interSlash (comps : List (List Char)) :
    comps ≠ [] → (∀ c ∈ comps, '/' ∉ c) →
    splitSlash (intercalateSlash comps) = comps := by
  induction comps with
  | nil => intro h _; exact absurd rfl h
  | cons a rest ih =>
    intro _ hclean
    cases rest with
    | nil =>
      exact splitSlash_no_slash a (hclean a (List.mem_cons_self a []))
    | cons b rest' =>
      rw [interSlash_cons_cons a b rest']
      show splitSlash (a ++ '/' :: intercalateSlash (b :: rest')) = _
      unfold splitSlash
      rw [splitSlashGo_append (intercalateSlash (b :: rest')) a []]
      rw [show splitSlashGo [] a = splitSlash a from rfl,
        splitSlash_no_slash a (hclean a (List.mem_cons_self a _)),
        ih (by simp) (fun c hc => hclean c (List.mem_cons_of_mem a hc))]
      rfl

theorem normP_interSlash (comps : List (List Char)) (hne : comps ≠ [])
    (hclean : ∀ c ∈ comps, c ≠ [] ∧ '/' ∉ c) :
    normP (intercalateSlash comps) = comps := by
  unfold normP
  rw [splitSlash_interSlash comps hne (fun c hc => (hclean c hc).2)]
  clear hne
  induction comps with
  | nil => rfl
  | cons a rest ih =>
    rw [List.filter_cons]
    rw [if_pos (by
      have ha := (hclean a (List.mem_cons_self a rest)).1
      cases a with
      | nil => exact absurd rfl ha
      | cons x xs => rfl)]
    rw [ih (fun c hc => hclean c (List.mem_cons_of_mem a hc))]

theorem takeWhile_append_stop (p : Char → Bool) (y : Char) (ys : List Char)
    (hy : p y = false) :
    ∀ xs : List Char, (∀ x ∈ xs, p x = true) →
      List.takeWhile p (xs ++ y :: ys) = xs := by
  intro xs
  induction xs with
  | nil =>
    intro _
    show List.takeWhile p (y :: ys) = []
    rw [List.takeWhile_cons, hy]
    rfl
  | cons x xs' ih =>
    intro hall
    show List.takeWhile p (x :: (xs' ++ y :: ys)) = x :: xs'
    rw [List.takeWhile_cons, hall x (List.mem_cons_self x xs'),
      ih (fun z hz => hall z (List.mem_cons_of_mem x hz))]
    rfl

theorem interSlash_facts (init : List (List Char)) :
    init ≠ [] → (∀ c ∈ init, c ≠ [] ∧ '/' ∉ c) →
    intercalateSlash init ≠ [] ∧ (∃ c ∈ intercalateSlash init, c ≠ '/') ∧
      (intercalateSlash init).getLast? ≠ some '/' := by
  induction init with
  | nil => intro h _; exact absurd rfl h
  | cons i0 rest ih =>
    intro _ hclean
    obtain ⟨h0ne, h0m⟩ := hclean i0 (List.mem_cons_self i0 rest)
    cases rest with
    | nil =>
      refine ⟨h0ne, ?_, getLast?_ne_slash i0 h0ne h0m⟩
      match i0, h0ne with
      | x :: t, _ =>
        exact ⟨x, List.mem_cons_self x t,
          fun h => h0m (h ▸ List.mem_cons_self x t)⟩
    | cons b rest' =>
      obtain ⟨hAne, _, hAl⟩ := ih (by simp)
        (fun c hc => hclean c (List.mem_cons_of_mem i0 hc))
      rw [interSlash_cons_cons i0 b rest']
      refine ⟨by simp [h0ne], ?_, ?_⟩
      · match i0, h0ne with
        | x :: t, _ =>
          exact ⟨x, List.mem_append_left _ (List.mem_cons_self x t),
            fun h => h0m (h ▸ List.mem_cons_self x t)⟩
      · rw [show i0 ++ '/' :: intercalateSlash (b :: rest')
            = i0 ++ ['/'] ++ intercalateSlash (b :: rest') by simp,
          List.getLast?_append_of_ne_nil _ hAne]
        exact hAl

theorem dirname_interSlash (init : List (List Char)) (l : List Char)
    (hinit : init ≠ []) (hclean : ∀ c ∈ init, c ≠ [] ∧ '/' ∉ c)
    (hl : l ≠ []) (hlm : '/' ∉ l) :
    dirname (intercalateSlash (init ++ [l])) = intercalateSlash init := by
  obtain ⟨hAne, ⟨cw, hcwm, hcww⟩, hAl⟩ := interSlash_facts init hinit hclean
  rw [interSlash_append_last init l hinit]
  unfold dirname
  have hrev : (intercalateSlash init ++ '/' :: l).reverse
      = l.reverse ++ '/' :: (intercalateSlash init).reverse := by
    rw [show intercalateSlash init ++ '/' :: l
        = intercalateSlash init ++ ['/'] ++ l by simp]
    simp
  rw [hrev, takeWhile_append_stop _ '/' _ (by decide) l.reverse
    (fun x hx => by
      have hxl : x ∈ l := List.mem_reverse.mp hx
      have : x ≠ '/' := fun h => hlm (h ▸ hxl)
      simp [this])]
  have hlen : (intercalateSlash init ++ '/' :: l).length
      = (intercalateSlash init).length + 1 + l.length := by
    simp [List.length_append]
    omega
  rw [if_neg (by
    rw [List.length_reverse, hlen]
    have : 0 < (intercalateSlash init).length := List.length_pos.mpr hAne
    omega)]
  have htake : (intercalateSlash init ++ '/' :: l).take
      ((intercalateSlash init ++ '/' :: l).length - l.reverse.length)
      = intercalateSlash init ++ ['/'] := by
    rw [List.length_reverse, hlen,
      show (intercalateSlash init).length + 1 + l.length - l.length
        = (intercalateSlash init).length + 1 by omega,
      List.take_append_eq_append_take,
      List.take_of_length_le (by omega),
      show (intercalateSlash init).length + 1 - (intercalateSlash init).length = 1 by
        omega]
    rfl
  rw [htake]
  rw [if_neg (by
    intro hall
    have := List.all_eq_true.mp hall cw (List.mem_append_left _ hcwm)
    simp at this
    exact hcww this)]
  have hrev2 : (intercalateSlash init ++ ['/']).reverse
      = '/' :: (intercalateSlash init).reverse := by simp
  rw [hrev2]
  rw [show List.dropWhile (fun c => c == '/')
        ('/' :: (intercalateSlash init).reverse)
      = List.dropWhile (fun c => c == '/') (intercalateSlash init).reverse from by
    rw [List.dropWhile_cons]
    simp]
  have hrevA : ∃ c0 t, (intercalateSlash init).reverse = c0 :: t ∧ c0 ≠ '/' := by
    match hrv : (intercalateSlash init).reverse with
    | [] =>
      exfalso
      apply hAne
      rw [← List.reverse_reverse (intercalateSlash init), hrv]
      rfl
    | c0 :: t =>
      refine ⟨c0, t, rfl, ?_⟩
      intro h
      apply hAl
      rw [← List.head?_reverse, hrv, h]
      rfl
  obtain ⟨c0, t, hct, hc0⟩ := hrevA
  rw [hct, List.dropWhile_cons]
  rw [if_neg (by simp [hc0])]
  rw [← hct]
  simp

theorem escChar_ne_nil (c : Char) : escChar c ≠ [] := by
  unfold escChar
  by_cases h1 : c = '='
  · simp [h1]
  · rw [if_neg h1]
    by_cases h2 : c = '/'
    · simp [h2]
    · rw [if_neg h2]
      by_cases h3 : c = nulC
      · simp [h3]
      · rw [if_neg h3]
        simp

theorem escape_ne_nil (key : List Char) (h : key ≠ []) : escape key ≠ [] := by
  match key, h with
  | c :: cs, _ =>
    rw [escape_cons]
    intro hcontra
    exact escChar_ne_nil c (List.append_eq_nil.mp hcontra).1

theorem shard_levels_clean (key : List Char) :
    ∀ c ∈ (posMults3 ((escape key).drop 10).length).map
      (fun i => ((escape key).drop 10).take i), c ≠ [] ∧ '/' ∉ c := by
  intro c hc
  obtain ⟨i, hi, rfl⟩ := List.mem_map.mp hc
  obtain ⟨h3, hlt⟩ := posMults3_mem _ i hi
  constructor
  · have hlen : (((escape key).drop 10).take i).length = i := by
      rw [List.length_take]
      omega
    intro hnil
    rw [hnil] at hlen
    simp at hlen
    omega
  · intro hmem
    exact (c9_escape_no_separator_no_null key).1
      (List.drop_subset 10 (escape key) (List.take_subset i _ hmem))

/-- The component structure of a mapped path: `dirname` of the raw path
splits into the clean parent chain, and the `.dat`/`.meta` paths normalise
to that chain extended by the keyed file name. -/
theorem ktp_bridge (name key : List Char) (hn : name ≠ []) (hnm : '/' ∉ name)
    (hk : key ≠ []) :
    ∃ (chain : List (List Char)) (lastc : List Char),
      chain ≠ [] ∧ (∀ c ∈ chain, c ≠ [] ∧ '/' ∉ c) ∧ lastc ≠ [] ∧ '/' ∉ lastc ∧
      splitSlash (dirname (key_to_path name key)) = chain ∧
      normP (key_to_path name key ++ datSuf) = chain ++ [lastc ++ datSuf] ∧
      normP (key_to_path name key ++ metaSuf) = chain ++ [lastc ++ metaSuf] := by
  have hekne : escape key ≠ [] := escape_ne_nil key hk
  have hekm : '/' ∉ escape key := (c9_escape_no_separator_no_null key).1
  have hdatm : '/' ∉ (escape key ++ datSuf) := by
    intro h
    rcases List.mem_append.mp h with h | h
    · exact hekm h
    · revert h; decide
  have hmetam : '/' ∉ (escape key ++ metaSuf) := by
    intro h
    rcases List.mem_append.mp h with h | h
    · exact hekm h
    · revert h; decide
  by_cases hpre : s3qlPre.isPrefixOf (escape key) = true
  · -- sharded layout
    have hktp := c2_shard_path_amended name key hn
      (getLast?_ne_slash name hn hnm) hpre
    set Ls := (posMults3 ((escape key).drop 10).length).map
      (fun i => ((escape key).drop 10).take i) with hLs
    have hshape : shardPathAmended name key
        = intercalateSlash ((name :: "s3ql_data".toList :: Ls) ++ [escape key]) := by
      simp only [shardPathAmended]
      rfl
    have hchainclean : ∀ c ∈ name :: "s3ql_data".toList :: Ls, c ≠ [] ∧ '/' ∉ c := by
      intro c hc
      rcases List.mem_cons.mp hc with rfl | hc
      · exact ⟨hn, hnm⟩
      · rcases List.mem_cons.mp hc with rfl | hc
        · exact ⟨by decide, by decide⟩
        · exact shard_levels_clean key c hc
    refine ⟨name :: "s3ql_data".toList :: Ls, escape key, by simp, hchainclean,
      hekne, hekm, ?_, ?_, ?_⟩
    · rw [hktp, hshape, dirname_interSlash _ _ (by simp) hchainclean hekne hekm,
        splitSlash_interSlash _ (by simp) (fun c hc => (hchainclean c hc).2)]
    · rw [hktp, hshape, interSlash_extend_last, normP_interSlash]
      · simp
      · intro c hc
        rcases List.mem_append.mp hc with hc | hc
        · exact hchainclean c hc
        · rcases List.mem_singleton.mp hc with rfl
          exact ⟨by simp [hekne], hdatm⟩
    · rw [hktp, hshape, interSlash_extend_last, normP_interSlash]
      · simp
      · intro c hc
        rcases List.mem_append.mp hc with hc | hc
        · exact hchainclean c hc
        · rcases List.mem_singleton.mp hc with rfl
          exact ⟨by simp [hekne], hmetam⟩
  · -- flat layout
    have hktp : key_to_path name key = intercalateSlash [name, escape key] := by
      simp only [key_to_path]
      rw [if_neg hpre]
      exact osJoin_eq_inter name [escape key] hn (getLast?_ne_slash name hn hnm)
        (fun c hc => by
          rcases List.mem_singleton.mp hc with rfl
          exact ⟨hekne, hekm⟩)
    have hclean1 : ∀ c ∈ [name], c ≠ [] ∧ '/' ∉ c := by
      intro c hc
      rcases List.mem_singleton.mp hc with rfl
      exact ⟨hn, hnm⟩
    refine ⟨[name], escape key, by simp, hclean1, hekne, hekm, ?_, ?_, ?_⟩
    · rw [hktp, show ([name, escape key] : List (List Char))
          = [name] ++ [escape key] from rfl,
        dirname_interSlash [name] (escape key) (by simp) hclean1 hekne hekm,
        splitSlash_interSlash [name] (by simp) (fun c hc => (hclean1 c hc).2)]
    · rw [hktp, show ([name, escape key] : List (List Char))
          = [name] ++ [escape key] from rfl,
        interSlash_extend_last, normP_interSlash]
      · simp
      · intro c hc
        rcases List.mem_append.mp hc with hc | hc
        · exact hclean1 c hc
        · rcases List.mem_singleton.mp hc with rfl
          exact ⟨by simp [hekne], hdatm⟩
    · rw [hktp, show ([name, escape key] : List (List Char))
          = [name] ++ [escape key] from rfl,
        interSlash_extend_last, normP_interSlash]
      · simp
      · intro c hc
        rcases List.mem_append.mp hc with hc | hc
        · exact hclean1 c hc
        · rcases List.mem_singleton.mp hc with rfl
          exact ⟨by simp [hekne], hmetam⟩

theorem normP_append_el (cur el : List Char) (he : el ≠ []) (hm : '/' ∉ el) :
    normP (cur ++ '/' :: el) = normP cur ++ [el] := by
  unfold normP
  rw [show splitSlash (cur ++ '/' :: el) = splitSlashGo [] (cur ++ '/' :: el) from rfl,
    splitSlashGo_append el cur [], splitSlash_no_slash el hm, List.filter_append]
  congr 1
  rw [List.filter_cons]
  rw [if_pos (by
    cases el with
    | nil => exact absurd rfl he
    | cons x xs => rfl)]
  rfl

theorem normP_root : normP ['/'] = [] := by decide

theorem exceptMap_error_inv {α β : Type} (g : α → β) (x : Except Err α) (er : Err)
    (h : x.map g = .error er) : x = .error er := by
  cases x with
  | ok a => simp [Except.map] at h
  | error e => simp [Except.map] at h; rw [h]

theorem assocFind_setFirst_ne (ch : List (List Char × Entry)) (n m : List Char)
    (e' : Entry) (hne : m ≠ n) : assocFind (setFirst ch n e') m = assocFind ch m := by
  induction ch with
  | nil =>
    show assocFind [(n, e')] m = none
    rw [assocFind_cons, if_neg (fun h => hne h.symm)]
    rfl
  | cons he rest ih =>
    obtain ⟨k, e⟩ := he
    by_cases hk : k = n
    · rw [show setFirst ((k, e) :: rest) n e'
          = if k = n then (k, e') :: rest else (k, e) :: setFirst rest n e' from rfl,
        if_pos hk, assocFind_cons, assocFind_cons]
      rw [if_neg (fun (h : k = m) => hne (h ▸ hk)), if_neg (fun (h : k = m) => hne (h ▸ hk))]
    · rw [show setFirst ((k, e) :: rest) n e'
          = if k = n then (k, e') :: rest else (k, e) :: setFirst rest n e' from rfl,
        if_neg hk, assocFind_cons, assocFind_cons]
      by_cases hkm : k = m
      · rw [if_pos hkm, if_pos hkm]
      · rw [if_neg hkm, if_neg hkm, ih]

/-- If writing the data file fails with `ENOENT`, the parent chain breaks
at a missing component: the parent path resolves to nothing, and every
proper prefix of the file path is a directory or absent (never a file). -/
theorem write_enoent_inv (d : Nat) :
    ∀ (p : List (List Char)) (n : List Char) (fs : Entry),
      modifyChild (wrF d) p n fs = .error .ENOENT →
      lookupE p fs = none ∧
      (∀ q, q <+: p ++ [n] → q ≠ p ++ [n] →
        lookupE q fs = none ∨ ∃ chq, lookupE q fs = some (.dir chq)) := by
  intro p
  induction p with
  | nil =>
    intro n fs h
    exfalso
    match fs with
    | .file c => simp [modifyChild] at h
    | .dir ch =>
      rw [show modifyChild (wrF d) [] n (Entry.dir ch)
          = (wrF d (assocFind ch n)).map (fun r => Entry.dir (applyChild ch n r))
          from rfl] at h
      match hfind : assocFind ch n with
      | none => rw [hfind] at h; simp [wrF, Except.map] at h
      | some (.file c) => rw [hfind] at h; simp [wrF, Except.map] at h
      | some (.dir ch2) => rw [hfind] at h; simp [wrF, Except.map] at h
  | cons q qs ih =>
    intro n fs h
    match fs with
    | .file c => simp [modifyChild] at h
    | .dir ch =>
      match hfind : assocFind ch q with
      | none =>
        refine ⟨lookupE_cons_none qs hfind, ?_⟩
        intro q' hq' _
        match q' with
        | [] => exact Or.inr ⟨ch, rfl⟩
        | a :: q'' =>
          obtain ⟨t, ht⟩ := hq'
          have ha : a = q := by
            have := congrArg (fun l => l.head?) ht
            simpa using this
          subst ha
          exact Or.inl (lookupE_cons_none q'' hfind)
      | some e =>
        rw [show modifyChild (wrF d) (q :: qs) n (Entry.dir ch)
            = (match assocFind ch q with
               | none => Except.error Err.ENOENT
               | some e => (modifyChild (wrF d) qs n e).map
                   (fun e' => Entry.dir (setFirst ch q e'))) from rfl, hfind] at h
        have h2 : modifyChild (wrF d) qs n e = .error .ENOENT :=
          exceptMap_error_inv _ _ _ h
        obtain ⟨hnone, hpref⟩ := ih n e h2
        refine ⟨by rw [lookupE_cons_found qs hfind]; exact hnone, ?_⟩
        intro q' hq' hne
        match q' with
        | [] => exact Or.inr ⟨ch, rfl⟩
        | a :: q'' =>
          obtain ⟨t, ht⟩ := hq'
          have hht : a :: (q'' ++ t) = q :: (qs ++ [n]) := ht
          have ha : a = q := by
            have := congrArg (fun l => l.head?) hht
            simpa using this
          subst ha
          have htt : q'' ++ t = qs ++ [n] := by
            have := congrArg List.tail hht
            simpa using this
          have hq'' : q'' <+: qs ++ [n] := ⟨t, htt⟩
          have hne'' : q'' ≠ qs ++ [n] := by
            intro hcontra
            exact hne (by simp [hcontra])
          rw [lookupE_cons_found q'' hfind]
          exact hpref q'' hq'' hne''

/-- `_makedirs`'s loop: walking clean path elements whose prefixes are
directories-or-absent from an existing directory, it creates exactly the
missing tail, reports whether anything was created, and never fails; the
end of the chain exists afterwards, freshly empty if it was missing. -/
theorem mkLoop_spec :
    ∀ (els : List (List Char)) (dn : Bool) (fs : Entry) (cur : List Char)
      (pre : List (List Char)),
      normP cur = pre →
      (∀ el ∈ els, el ≠ [] ∧ '/' ∉ el) →
      (∃ chd, lookupE pre fs = some (.dir chd)) →
      (∀ i, i ≤ els.length →
        lookupE (pre ++ els.take i) fs = none ∨
        ∃ chq, lookupE (pre ++ els.take i) fs = some (.dir chq)) →
      ∃ fs',
        mkLoop fs cur dn els = (fs', dn || (lookupE (pre ++ els) fs).isNone, none) ∧
        (∃ che, lookupE (pre ++ els) fs' = some (.dir che)) ∧
        (lookupE (pre ++ els) fs = none →
          ∀ x, lookupE ((pre ++ els) ++ [x]) fs' = none) := by
  intro els
  induction els with
  | nil =>
    intro dn fs cur pre _ _ hpar hdoa
    obtain ⟨chd, hchd⟩ := hpar
    refine ⟨fs, ?_, ⟨chd, by simpa using hchd⟩, ?_⟩
    · rw [show mkLoop fs cur dn [] = (fs, dn, none) from rfl]
      rw [show pre ++ ([] : List (List Char)) = pre by simp, hchd]
      simp
    · intro hnone x
      exfalso
      rw [show pre ++ ([] : List (List Char)) = pre by simp, hchd] at hnone
      exact Option.noConfusion hnone
  | cons el rest ih =>
    intro dn fs cur pre hcur hclean hpar hdoa
    obtain ⟨chd, hchd⟩ := hpar
    obtain ⟨helne, helm⟩ := hclean el (List.mem_cons_self el rest)
    have hcur' : normP (cur ++ '/' :: el) = pre ++ [el] := by
      rw [normP_append_el cur el helne helm, hcur]
    have hpath : pre ++ el :: rest = (pre ++ [el]) ++ rest := by simp
    have hunfold : mkLoop fs cur dn (el :: rest)
        = if pathExists fs (cur ++ '/' :: el) then
            mkLoop fs (cur ++ '/' :: el) dn rest
          else
            match mkdirC fs (normP (cur ++ '/' :: el)) with
            | .ok fs2 => mkLoop fs2 (cur ++ '/' :: el) true rest
            | .error e => (fs, dn, some e) := rfl
    by_cases hex : pathExists fs (cur ++ '/' :: el) = true
    · -- the component already exists: it must be a directory
      have hsome : (lookupE (pre ++ [el]) fs).isSome = true := by
        unfold pathExists at hex
        rw [hcur'] at hex
        exact hex
      have h1 := hdoa 1 (by simp)
      rw [show (el :: rest).take 1 = [el] from rfl] at h1
      obtain ⟨ch1, hch1⟩ : ∃ ch1, lookupE (pre ++ [el]) fs = some (.dir ch1) := by
        rcases h1 with h | h
        · rw [h] at hsome; exact absurd hsome (by simp)
        · exact h
      have hdoa' : ∀ i, i ≤ rest.length →
          lookupE ((pre ++ [el]) ++ rest.take i) fs = none ∨
          ∃ chq, lookupE ((pre ++ [el]) ++ rest.take i) fs = some (.dir chq) := by
        intro i hi
        have h2 := hdoa (i + 1) (by simp; omega)
        rw [show (el :: rest).take (i + 1) = el :: rest.take i from rfl,
          show pre ++ el :: rest.take i = (pre ++ [el]) ++ rest.take i by simp] at h2
        exact h2
      obtain ⟨fs', heq, hb, hc⟩ := ih dn fs (cur ++ '/' :: el) (pre ++ [el]) hcur'
        (fun c hc2 => hclean c (List.mem_cons_of_mem el hc2)) ⟨ch1, hch1⟩ hdoa'
      refine ⟨fs', ?_, ?_, ?_⟩
      · rw [hunfold, if_pos hex, heq, hpath]
      · rw [hpath]; exact hb
      · intro hnone x
        rw [hpath] at hnone ⊢
        exact hc hnone x
    · -- the component is missing: it gets created
      have hnone1 : lookupE (pre ++ [el]) fs = none := by
        unfold pathExists at hex
        rw [hcur'] at hex
        cases hl : lookupE (pre ++ [el]) fs with
        | none => rfl
        | some x => rw [hl] at hex; simp at hex
      have hfind : assocFind chd el = none := (lookupE_child hchd).symm.trans hnone1
      have hmk : mkdirC fs (pre ++ [el])
          = .ok (setAtE pre (.dir (setFirst chd el (.dir []))) fs) := by
        rw [mkdirC_append, modifyChild_spec mkdF pre fs chd el hchd, hfind]
        rfl
      have hlkpre1 : lookupE pre (setAtE pre (.dir (setFirst chd el (.dir []))) fs)
          = some (.dir (setFirst chd el (.dir []))) :=
        lookupE_setAtE_self pre fs _ _ hchd
      have hlk1 : lookupE (pre ++ [el])
          (setAtE pre (.dir (setFirst chd el (.dir []))) fs) = some (.dir []) := by
        rw [lookupE_child hlkpre1, assocFind_setFirst_self]
      have hall_none : lookupE (pre ++ el :: rest) fs = none := by
        rw [hpath, lookupE_append, hnone1]
        rfl
      have hdoa1 : ∀ i, i ≤ rest.length →
          lookupE ((pre ++ [el]) ++ rest.take i)
            (setAtE pre (.dir (setFirst chd el (.dir []))) fs) = none ∨
          ∃ chq, lookupE ((pre ++ [el]) ++ rest.take i)
            (setAtE pre (.dir (setFirst chd el (.dir []))) fs) = some (.dir chq) := by
        intro i hi
        cases i with
        | zero => exact Or.inr ⟨[], by simpa using hlk1⟩
        | succ j =>
          left
          match rest, hi with
          | r0 :: rr, _ =>
            rw [show (r0 :: rr).take (j + 1) = r0 :: rr.take j from rfl,
              lookupE_append, hlk1]
            show lookupE (r0 :: rr.take j) (Entry.dir []) = none
            exact lookupE_cons_none _ rfl
      obtain ⟨fs', heq, hb, hc⟩ := ih true
        (setAtE pre (.dir (setFirst chd el (.dir []))) fs) (cur ++ '/' :: el)
        (pre ++ [el]) hcur'
        (fun c hc2 => hclean c (List.mem_cons_of_mem el hc2)) ⟨[], hlk1⟩ hdoa1
      refine ⟨fs', ?_, ?_, ?_⟩
      · rw [hunfold, if_neg hex, hcur', hmk]
        show mkLoop (setAtE pre (.dir (setFirst chd el (.dir []))) fs)
          (cur ++ '/' :: el) true rest = _
        rw [heq, hall_none]
        simp
      · rw [hpath]; exact hb
      · intro _ x
        rw [hpath]
        cases rest with
        | nil =>
          have hfs' : fs' = setAtE pre (.dir (setFirst chd el (.dir []))) fs := by
            have h0 : mkLoop (setAtE pre (.dir (setFirst chd el (.dir []))) fs)
                (cur ++ '/' :: el) true []
                = (setAtE pre (.dir (setFirst chd el (.dir []))) fs, true, none) := rfl
            rw [h0] at heq
            exact (congrArg (fun t => t.1) heq).symm
          rw [hfs', show (pre ++ [el]) ++ ([] : List (List Char)) = pre ++ [el] by simp]
          rw [lookupE_child hlk1]
          rfl
        | cons r0 rr =>
          refine hc ?_ x
          rw [lookupE_append, hlk1]
          show lookupE (r0 :: rr) (Entry.dir []) = none
          exact lookupE_cons_none _ rfl

theorem datSuf_ne_metaSuf (lastc : List Char) :
    lastc ++ datSuf ≠ lastc ++ metaSuf := by
  intro h
  have hlen := congrArg List.length h
  rw [List.length_append, List.length_append,
    show datSuf.length = 4 from rfl, show metaSuf.length = 5 from rfl] at hlen
  omega

set_option maxHeartbeats 1600000 in
/-- Reduction of `raw_store` along the recovery path: initial data write
fails with ENOENT, `makedirs` succeeds, and both retried writes succeed. -/
theorem raw_store_recover_eq (fs fs2 fs3 fs4 : Entry) (name key : List Char)
    (d m : Nat)
    (h1 : writeC fs (normP (key_to_path name key ++ datSuf)) d = .error .ENOENT)
    (h2 : makedirs fs (dirname (key_to_path name key)) = (fs2, none))
    (h3 : writeC fs2 (normP (key_to_path name key ++ datSuf)) d = .ok fs3)
    (h4 : writeC fs3 (normP (key_to_path name key ++ metaSuf)) m = .ok fs4) :
    raw_store fs name key d m = (fs4, none) := by
  simp only [raw_store]
  conv_lhs => rw [h1]
  show (match (if (Err.ENOENT ≠ Err.ENOENT) then (fs, some (PyErr.ioError Err.ENOENT))
      else match makedirs fs (dirname (key_to_path name key)) with
        | (a, some e2) => (a, some (PyErr.ioError e2))
        | (a, none) =>
          match writeC a (normP (key_to_path name key ++ datSuf)) d with
          | .ok b => (b, none)
          | .error e3 => (a, some (PyErr.ioError e3))) with
    | (c, some e) => (c, some e)
    | (c, none) =>
      match writeC c (normP (key_to_path name key ++ metaSuf)) m with
      | .ok b2 => (b2, none)
      | .error e => (c, some (PyErr.ioError e))) = (fs4, none)
  conv_lhs => rw [if_neg (fun hcc => hcc rfl), h2]
  show (match (match writeC fs2 (normP (key_to_path name key ++ datSuf)) d with
      | .ok b => (b, none)
      | .error e3 => (fs2, some (PyErr.ioError e3))) with
    | (c, some e) => (c, some e)
    | (c, none) =>
      match writeC c (normP (key_to_path name key ++ metaSuf)) m with
      | .ok b2 => (b2, none)
      | .error e => (c, some (PyErr.ioError e))) = (fs4, none)
  conv_lhs => rw [h3]
  show (match writeC fs3 (normP (key_to_path name key ++ metaSuf)) m with
    | .ok b2 => (b2, none)
    | .error e => (fs3, some (PyErr.ioError e))) = (fs4, none)
  conv_lhs => rw [h4]

set_option maxHeartbeats 1600000 in
/-- Reduction of `raw_store` when the initial data write fails with an
error other than ENOENT: the error propagates, the state is unchanged. -/
theorem raw_store_error_eq (fs : Entry) (name key : List Char) (d m : Nat)
    (e : Err)
    (h1 : writeC fs (normP (key_to_path name key ++ datSuf)) d = .error e)
    (he : e ≠ .ENOENT) :
    raw_store fs name key d m = (fs, some (.ioError e)) := by
  simp only [raw_store]
  conv_lhs => rw [h1]
  show (match (if (e ≠ Err.ENOENT) then (fs, some (PyErr.ioError e))
      else match makedirs fs (dirname (key_to_path name key)) with
        | (a, some e2) => (a, some (PyErr.ioError e2))
        | (a, none) =>
          match writeC a (normP (key_to_path name key ++ datSuf)) d with
          | .ok b => (b, none)
          | .error e3 => (a, some (PyErr.ioError e3))) with
    | (c, some e4) => (c, some e4)
    | (c, none) =>
      match writeC c (normP (key_to_path name key ++ metaSuf)) m with
      | .ok b2 => (b2, none)
      | .error e4 => (c, some (PyErr.ioError e4))) = (fs, some (PyErr.ioError e))
  conv_lhs => rw [if_pos he]

/-- C5: if the initial data-file open fails with `ENOENT` (missing parent
directory), `raw_store` creates the whole missing parent chain and retries
once, after which both the data and the metadata file are in place; any
other failure of the initial open propagates unchanged. -/
theorem c5_store_missing_parent_recovery :
    (∀ (fs : Entry) (name key : List Char) (d m : Nat),
       name ≠ [] → '/' ∉ name → key ≠ [] →
       writeC fs (normP (key_to_path name key ++ datSuf)) d = .error .ENOENT →
       ∃ fs', raw_store fs name key d m = (fs', none) ∧
         lookupE (normP (key_to_path name key ++ datSuf)) fs' = some (.file d) ∧
         lookupE (normP (key_to_path name key ++ metaSuf)) fs' = some (.file m))
    ∧ (∀ (fs : Entry) (name key : List Char) (d m : Nat) (e : Err),
       writeC fs (normP (key_to_path name key ++ datSuf)) d = .error e →
       e ≠ .ENOENT →
       raw_store fs name key d m = (fs, some (.ioError e))) := by
  constructor
  · intro fs name key d m hn hnm hk hw
    obtain ⟨chain, lastc, hchne, hchclean, hlcne, hlcm, hsplit, hdat, hmeta⟩ :=
      ktp_bridge name key hn hnm hk
    have hw0 := hw
    rw [hdat] at hw
    rw [writeC_append] at hw
    obtain ⟨hchain_none, hpref⟩ := write_enoent_inv d chain (lastc ++ datSuf) fs hw
    have hroot : ∃ ch0, fs = Entry.dir ch0 := by
      have h0 := hpref [] List.nil_prefix
        (fun h => by
          have hlen : (chain ++ [lastc ++ datSuf]).length = 0 := by rw [← h]; rfl
          rw [List.length_append] at hlen
          simp at hlen)
      rcases h0 with h | ⟨ch0, h⟩
      · have h2 : (some fs : Option Entry) = none := h
        exact Option.noConfusion h2
      · have h2 : (some fs : Option Entry) = some (Entry.dir ch0) := h
        exact ⟨ch0, Option.some_inj.mp h2⟩
    have hdoa : ∀ i, i ≤ chain.length →
        lookupE (([] : List (List Char)) ++ chain.take i) fs = none ∨
        ∃ chq, lookupE (([] : List (List Char)) ++ chain.take i) fs
          = some (.dir chq) := by
      intro i hi
      have hq : chain.take i <+: chain ++ [lastc ++ datSuf] :=
        (List.take_prefix i chain).trans (List.prefix_append chain _)
      have hqne : chain.take i ≠ chain ++ [lastc ++ datSuf] := by
        intro h
        have := congrArg List.length h
        rw [List.length_take, List.length_append] at this
        simp at this
        omega
      have := hpref (chain.take i) hq hqne
      exact this
    have hpar : ∃ chd, lookupE ([] : List (List Char)) fs = some (.dir chd) := by
      obtain ⟨ch0, h0⟩ := hroot
      refine ⟨ch0, ?_⟩
      rw [h0]
      rfl
    obtain ⟨fs2, hmkl, ⟨che, hche⟩, hcempty⟩ :=
      mkLoop_spec chain false fs ['/'] [] normP_root
        (fun c hc => hchclean c hc) hpar hdoa
    rw [List.nil_append] at hmkl hche hcempty
    have hmkd : makedirs fs (dirname (key_to_path name key)) = (fs2, none) := by
      unfold makedirs
      rw [hsplit, hmkl, hchain_none]
      rfl
    have hcempty' := hcempty hchain_none
    have hw2 : writeC fs2 (chain ++ [lastc ++ datSuf]) d
        = .ok (setAtE chain (.dir (setFirst che (lastc ++ datSuf) (.file d))) fs2) := by
      rw [writeC_append, modifyChild_spec (wrF d) chain fs2 che _ hche]
      rw [show assocFind che (lastc ++ datSuf) = none from
        (lookupE_child hche).symm.trans (hcempty' (lastc ++ datSuf))]
      rfl
    have hche3 : lookupE chain
        (setAtE chain (.dir (setFirst che (lastc ++ datSuf) (.file d))) fs2)
        = some (.dir (setFirst che (lastc ++ datSuf) (.file d))) :=
      lookupE_setAtE_self chain fs2 _ _ hche
    have hfind_meta : assocFind (setFirst che (lastc ++ datSuf) (.file d))
        (lastc ++ metaSuf) = none := by
      rw [assocFind_setFirst_ne _ _ _ _ (fun h => datSuf_ne_metaSuf lastc h.symm)]
      exact (lookupE_child hche).symm.trans (hcempty' (lastc ++ metaSuf))
    have hw3 : writeC (setAtE chain (.dir (setFirst che (lastc ++ datSuf) (.file d))) fs2)
        (chain ++ [lastc ++ metaSuf]) m
        = .ok (setAtE chain (.dir (setFirst (setFirst che (lastc ++ datSuf) (.file d))
            (lastc ++ metaSuf) (.file m)))
            (setAtE chain (.dir (setFirst che (lastc ++ datSuf) (.file d))) fs2)) := by
      rw [writeC_append, modifyChild_spec (wrF m) chain _ _ _ hche3, hfind_meta]
      rfl
    have hd2 : writeC fs2 (normP (key_to_path name key ++ datSuf)) d
        = .ok (setAtE chain (.dir (setFirst che (lastc ++ datSuf) (.file d))) fs2) := by
      rw [hdat]; exact hw2
    have hd3 : writeC (setAtE chain (.dir (setFirst che (lastc ++ datSuf) (.file d))) fs2)
        (normP (key_to_path name key ++ metaSuf)) m
        = .ok (setAtE chain (.dir (setFirst (setFirst che (lastc ++ datSuf) (.file d))
            (lastc ++ metaSuf) (.file m)))
            (setAtE chain (.dir (setFirst che (lastc ++ datSuf) (.file d))) fs2)) := by
      rw [hmeta]; exact hw3
    refine ⟨setAtE chain (.dir (setFirst (setFirst che (lastc ++ datSuf) (.file d))
        (lastc ++ metaSuf) (.file m)))
        (setAtE chain (.dir (setFirst che (lastc ++ datSuf) (.file d))) fs2), ?_, ?_, ?_⟩
    · exact raw_store_recover_eq fs fs2 _ _ name key d m hw0 hmkd hd2 hd3
    · rw [hdat]
      have hchefin : lookupE chain
          (setAtE chain (.dir (setFirst (setFirst che (lastc ++ datSuf) (.file d))
            (lastc ++ metaSuf) (.file m)))
            (setAtE chain (.dir (setFirst che (lastc ++ datSuf) (.file d))) fs2))
          = some (.dir (setFirst (setFirst che (lastc ++ datSuf) (.file d))
            (lastc ++ metaSuf) (.file m))) :=
        lookupE_setAtE_self chain _ _ _ hche3
      rw [lookupE_child hchefin,
        assocFind_setFirst_ne _ _ _ _ (datSuf_ne_metaSuf lastc),
        assocFind_setFirst_self]
    · rw [hmeta]
      have hchefin : lookupE chain
          (setAtE chain (.dir (setFirst (setFirst che (lastc ++ datSuf) (.file d))
            (lastc ++ metaSuf) (.file m)))
            (setAtE chain (.dir (setFirst che (lastc ++ datSuf) (.file d))) fs2))
          = some (.dir (setFirst (setFirst che (lastc ++ datSuf) (.file d))
            (lastc ++ metaSuf) (.file m))) :=
        lookupE_setAtE_self chain _ _ _ hche3
      rw [lookupE_child hchefin, assocFind_setFirst_self]
  · intro fs name key d m e hw he
    exact raw_store_error_eq fs name key d m e hw he

theorem c5_store_missing_parent_recovery_witness :
    (∃ fs', raw_store (.dir []) "bucket".toList "x".toList 1 2 = (fs', none) ∧
      lookupE (normP (key_to_path "bucket".toList "x".toList ++ datSuf)) fs'
        = some (.file 1) ∧
      lookupE (normP (key_to_path "bucket".toList "x".toList ++ metaSuf)) fs'
        = some (.file 2)) ∧
    raw_store (.file 0) "bucket".toList "x".toList 1 2
      = (.file 0, some (.ioError .other)) :=
  ⟨c5_store_missing_parent_recovery.1 (.dir []) "bucket".toList "x".toList 1 2
      (by decide) (by decide) (by decide) rfl,
    c5_store_missing_parent_recovery.2 (.file 0) "bucket".toList "x".toList 1 2
      .other rfl (by decide)⟩

/-!
## The directory walk (C8)

`Bucket._walk` (sftp.py lines 182-194) iterates with an explicit work
list: `to_visit` starts as `[ base ]`; while it is non-empty the loop pops
its last element, lists it with `conn.sftp.listdir_attr`, pushes the path
of every subdirectory (`'%s/%s' % (base, attr.filename)`, which appends
one clean component, cf. `normP_append_el`) and yields
`(base, to_visit, files)`.  The walk never modifies the server state, so
the entry reached by a pending path is exactly the subtree that was in
place when the path was pushed; the model therefore keeps that subtree
alongside each pending path.  `walkAux` holds the work list with its top
(the element Python pops with `to_visit.pop()`) at the head, so a Python
`append` of the subdirectories d1, .., dk in listing order corresponds to
prepending `[dk, .., d1]`.
-/

/-- The subdirectory entries of a listing, as (child path, subtree) work
items in listing order (the `stat.S_ISDIR` branch of the loop body). -/
def dirItems (p : List (List Char)) :
    List (List Char × Entry) → List ((List (List Char)) × Entry)
  | [] => []
  | (n, .dir ch) :: rest => (p ++ [n], .dir ch) :: dirItems p rest
  | (_, .file _) :: rest => dirItems p rest

/-- The plain-file names of a listing, in listing order (the `else`
branch of the loop body). -/
def fileNames : List (List Char × Entry) → List (List Char)
  | [] => []
  | (n, .file _) :: rest => n :: fileNames rest
  | (_, .dir _) :: rest => fileNames rest

mutual
/-- Number of nodes of a subtree; the unit of the termination measure of
the `while to_visit:` loop. -/
def entSize : Entry → Nat
  | .file _ => 1
  | .dir ch => 1 + chSize ch

/-- Total number of nodes below the entries of a listing. -/
def chSize : List (List Char × Entry) → Nat
  | [] => 0
  | (_, e) :: rest => entSize e + chSize rest
end

/-- Total size of the subtrees on the work list; the termination measure
of the `while to_visit:` loop. -/
def wsum : List ((List (List Char)) × Entry) → Nat
  | [] => 0
  | (_, e) :: rest => entSize e + wsum rest

theorem wsum_append (a b : List ((List (List Char)) × Entry)) :
    wsum (a ++ b) = wsum a + wsum b := by
  induction a with
  | nil =>
    rw [List.nil_append]
    show wsum b = wsum [] + wsum b
    rw [show wsum ([] : List ((List (List Char)) × Entry)) = 0 from rfl]
    omega
  | cons it rest ih =>
    obtain ⟨p, e⟩ := it
    show entSize e + wsum (rest ++ b) = entSize e + wsum rest + wsum b
    rw [ih]
    omega

theorem wsum_reverse (l : List ((List (List Char)) × Entry)) :
    wsum l.reverse = wsum l := by
  induction l with
  | nil => rfl
  | cons it rest ih =>
    obtain ⟨p, e⟩ := it
    rw [List.reverse_cons, wsum_append, ih]
    show wsum rest + (entSize e + 0) = entSize e + wsum rest
    omega

theorem wsum_dirItems_le (p : List (List Char)) (ch : List (List Char × Entry)) :
    wsum (dirItems p ch) ≤ chSize ch := by
  induction ch with
  | nil => exact Nat.le_refl 0
  | cons he rest ih =>
    obtain ⟨n, e⟩ := he
    cases e with
    | file c =>
      have h1 : wsum (dirItems p ((n, Entry.file c) :: rest))
          = wsum (dirItems p rest) := rfl
      have h2 : chSize ((n, Entry.file c) :: rest)
          = entSize (Entry.file c) + chSize rest := rfl
      rw [h1, h2]
      omega
    | dir ch2 =>
      have h1 : wsum (dirItems p ((n, Entry.dir ch2) :: rest))
          = entSize (Entry.dir ch2) + wsum (dirItems p rest) := rfl
      have h2 : chSize ((n, Entry.dir ch2) :: rest)
          = entSize (Entry.dir ch2) + chSize rest := rfl
      rw [h1, h2]
      omega

/-- The `while to_visit:` loop of `_walk`: pop the top of the work list,
list it, push its subdirectories, yield the popped path together with the
work list after the pushes and the plain-file names; `listdir_attr` on a
plain file fails.  The function being total is the termination half of
the walk specification. -/
def walkAux : List ((List (List Char)) × Entry) →
    Except Unit
      (List ((List (List Char)) × List ((List (List Char)) × Entry) × List (List Char)))
  | [] => .ok []
  | (_, .file _) :: _ => .error ()
  | (p, .dir ch) :: rest =>
    match walkAux ((dirItems p ch).reverse ++ rest) with
    | .error e => .error e
    | .ok ys => .ok ((p, (dirItems p ch).reverse ++ rest, fileNames ch) :: ys)
termination_by pending => wsum pending
decreasing_by
  have h1 : wsum ((dirItems p ch).reverse ++ rest)
      = wsum (dirItems p ch) + wsum rest := by rw [wsum_append, wsum_reverse]
  have h2 := wsum_dirItems_le p ch
  have h3 : wsum ((p, Entry.dir ch) :: rest)
      = (1 + chSize ch) + wsum rest := rfl
  rw [h1, h3]
  omega

/-- `Bucket._walk(base)` run to exhaustion against the remote tree `fs`
(the walk itself never changes the server state). -/
def walk (fs : Entry) (base : List (List Char)) :
    Except Unit
      (List ((List (List Char)) × List ((List (List Char)) × Entry) × List (List Char))) :=
  match lookupE base fs with
  | some e => walkAux [(base, e)]
  | none => .error ()

mutual
/-- All descendant directory paths of an entry placed at path `p`, the
entry itself included when it is a directory. -/
def dirPathsE (p : List (List Char)) : Entry → List (List (List Char))
  | .file _ => []
  | .dir ch => p :: dirPathsCh p ch

/-- All descendant directory paths contributed by the children of a
directory at path `p`. -/
def dirPathsCh (p : List (List Char)) :
    List (List Char × Entry) → List (List (List Char))
  | [] => []
  | (n, e) :: rest => dirPathsE (p ++ [n]) e ++ dirPathsCh p rest
end

theorem dirPathsCh_eq_flatten (p : List (List Char))
    (ch : List (List Char × Entry)) :
    dirPathsCh p ch
      = ((dirItems p ch).map (fun it => dirPathsE it.1 it.2)).flatten := by
  induction ch with
  | nil => simp [dirPathsCh, dirItems]
  | cons he rest ih =>
    obtain ⟨n, e⟩ := he
    cases e with
    | file c => simpa [dirPathsCh, dirPathsE, dirItems] using ih
    | dir ch2 => simp [dirPathsCh, dirPathsE, dirItems, ih]

theorem dirItems_isDir (p : List (List Char)) (ch : List (List Char × Entry)) :
    ∀ it ∈ dirItems p ch, ∃ chd, it.2 = Entry.dir chd := by
  induction ch with
  | nil => intro it h; cases h
  | cons he rest ih =>
    obtain ⟨n, e⟩ := he
    cases e with
    | file c => exact fun it h => ih it h
    | dir ch2 =>
      intro it h
      rcases List.mem_cons.mp h with h | h
      · exact ⟨ch2, by rw [h]⟩
      · exact ih it h

theorem walkAux_perm (N : Nat) : ∀ pending, wsum pending < N →
    (∀ it ∈ pending, ∃ chd, it.2 = Entry.dir chd) →
    ∃ ys, walkAux pending = .ok ys ∧
      (ys.map (fun y => y.1)).Perm
        ((pending.map (fun it => dirPathsE it.1 it.2)).flatten) := by
  induction N with
  | zero => intro pending h0 _; exact absurd h0 (Nat.not_lt_zero _)
  | succ n ih =>
    intro pending hlt hdirs
    cases pending with
    | nil =>
      refine ⟨[], by simp [walkAux], by simp⟩
    | cons it rest =>
      obtain ⟨p, e⟩ := it
      obtain ⟨ch, hch⟩ := hdirs (p, e) (List.mem_cons_self _ _)
      have hch2 : e = Entry.dir ch := hch
      subst hch2
      have hlt2 : wsum ((dirItems p ch).reverse ++ rest) < n := by
        have h1 : wsum ((dirItems p ch).reverse ++ rest)
            = wsum (dirItems p ch) + wsum rest := by rw [wsum_append, wsum_reverse]
        have h2 := wsum_dirItems_le p ch
        have h3 : wsum ((p, Entry.dir ch) :: rest)
            = (1 + chSize ch) + wsum rest := rfl
        rw [h3] at hlt
        rw [h1]
        omega
      have hdirs2 : ∀ it ∈ (dirItems p ch).reverse ++ rest,
          ∃ chd, it.2 = Entry.dir chd := by
        intro it hit
        rcases List.mem_append.mp hit with h | h
        · exact dirItems_isDir p ch it (List.mem_reverse.mp h)
        · exact hdirs it (List.mem_cons_of_mem _ h)
      obtain ⟨ys, hys, hperm⟩ := ih ((dirItems p ch).reverse ++ rest) hlt2 hdirs2
      refine ⟨(p, (dirItems p ch).reverse ++ rest, fileNames ch) :: ys, ?_, ?_⟩
      · have heq : walkAux ((p, Entry.dir ch) :: rest)
            = match walkAux ((dirItems p ch).reverse ++ rest) with
              | .error e => .error e
              | .ok ys2 =>
                .ok ((p, (dirItems p ch).reverse ++ rest, fileNames ch) :: ys2) := by
          simp [walkAux]
        rw [heq, hys]
      · have hstep : (ys.map (fun y => y.1)).Perm
            (dirPathsCh p ch
              ++ ((rest.map (fun it => dirPathsE it.1 it.2)).flatten)) := by
          have hrw : (((dirItems p ch).reverse ++ rest).map
                (fun it => dirPathsE it.1 it.2)).flatten
              = ((dirItems p ch).map (fun it => dirPathsE it.1 it.2)).reverse.flatten
                ++ ((rest.map (fun it => dirPathsE it.1 it.2)).flatten) := by
            rw [List.map_append, List.flatten_append, List.map_reverse]
          rw [hrw] at hperm
          refine hperm.trans (List.Perm.append_right _ ?_)
          rw [dirPathsCh_eq_flatten]
          exact List.Perm.flatten (List.reverse_perm _)
        have hconsrw : ((((p, Entry.dir ch) :: rest).map
              (fun it => dirPathsE it.1 it.2)).flatten)
            = p :: (dirPathsCh p ch
              ++ ((rest.map (fun it => dirPathsE it.1 it.2)).flatten)) := by
          rw [List.map_cons, List.flatten_cons]
          rw [show dirPathsE p (Entry.dir ch) = p :: dirPathsCh p ch
            from by simp [dirPathsE]]
          rfl
        rw [hconsrw]
        exact hstep.cons p

/-- C8: on a bucket whose base path names a directory of the remote tree,
the walk terminates (`walkAux`, the explicit work-list loop, is a total
function and returns a finite yield list with no error), and the visited
directories — the first components of the yielded triples — are a
permutation of the descendant directory paths of the base, base included:
every descendant directory is visited exactly once before the walk
ends. -/
theorem c8_walk_visits_every_dir_once (fs : Entry) (base : List (List Char))
    (ch : List (List Char × Entry)) (hb : lookupE base fs = some (.dir ch)) :
    ∃ ys, walk fs base = .ok ys ∧
      (ys.map (fun y => y.1)).Perm (dirPathsE base (.dir ch)) := by
  obtain ⟨ys, hys, hperm⟩ := walkAux_perm (wsum [(base, Entry.dir ch)] + 1)
    [(base, Entry.dir ch)] (by omega)
    (fun it hit => by
      have h : it = (base, Entry.dir ch) := List.mem_singleton.mp hit
      exact ⟨ch, by rw [h]⟩)
  refine ⟨ys, ?_, ?_⟩
  · unfold walk
    rw [hb]
    exact hys
  · refine hperm.trans ?_
    rw [List.map_cons, List.map_nil, List.flatten_cons, List.flatten_nil,
      List.append_nil]

def fsW8 : Entry :=
  .dir [("a".toList, .dir [("b".toList, .dir []), ("f".toList, .file 0)]),
    ("g".toList, .file 1)]

theorem c8_walk_visits_every_dir_once_witness :
    ∃ ys, walk fsW8 ["a".toList] = .ok ys ∧
      (ys.map (fun y => y.1)).Perm
        (dirPathsE ["a".toList]
          (.dir [("b".toList, .dir []), ("f".toList, .file 0)])) :=
  c8_walk_visits_every_dir_once fsW8 ["a".toList]
    [("b".toList, .dir []), ("f".toList, .file 0)] rfl
